import Mathlib

/-!
Verification of the Tiny-C compiler and virtual machine (`tinyc.py`).

The development shallowly embeds the four stages of the pipeline:
lexer (`nextTok`), recursive-descent parser (`statementP` and friends,
fuel-indexed), code generator (`c` with the mutable buffer threaded as
explicit state, plus its derived normal form `code`), and the bytecode
virtual machine (`step` / `run`).  Machine integers are modelled as `Int`;
the Python `array("b")` byte-range constraint (assignment outside
-128..127 raises `OverflowError`) is captured by the predicate `byteOk`.
-/

namespace TinyC

/-- Lexer/parser error kind.  `synErr` corresponds to the Python
`syntax_error()` (print "syntax error", exit 1); `noFuel` is an artifact
of the fuel-indexed embedding of the recursive-descent parser and never
occurs for sufficiently large fuel. -/
inductive PErr where
  | synErr
  | noFuel
deriving DecidableEq, Repr

/-- Tokens, mirroring the `Symbol` enum of the source (DO_SYM .. EOI).
`ID` carries the single identifier character (the Python lexer keeps
`id_name`, which has length 1 whenever `sym = ID`); `INT` carries the
decimal value accumulated by the digit loop. -/
inductive Tok where
  | DO_SYM | ELSE_SYM | IF_SYM | WHILE_SYM
  | LBRA | RBRA | LPAR | RPAR
  | PLUS | MINUS | LESS | SEMI | EQUAL
  | INT (v : Nat)
  | ID (ch : Char)
  | EOI
deriving DecidableEq, Repr

/-- AST nodes, mirroring `NodeType`.  The parser only ever builds a `SET`
node whose `o1` is a `VAR` node (it checks `x.kind == NodeType.VAR.value`
before constructing it) and the code generator reads just `x.o1.val`,
so `SET` carries the target's variable index directly. -/
inductive Node where
  | VAR (i : Nat)
  | CST (v : Nat)
  | ADD (o1 o2 : Node)
  | SUB (o1 o2 : Node)
  | LT (o1 o2 : Node)
  | SET (i : Nat) (o2 : Node)
  | IF1 (o1 o2 : Node)
  | IF2 (o1 o2 o3 : Node)
  | WHILE (o1 o2 : Node)
  | DO (o1 o2 : Node)
  | EMPTY
  | SEQ (o1 o2 : Node)
  | EXPR (o1 : Node)
  | PROG (o1 : Node)
deriving DecidableEq, Repr

/-- `ch >= "0" and ch <= "9"` in `next_sym`. -/
def isDigitCh (ch : Char) : Bool := '0' ≤ ch && ch ≤ '9'

/-- `ch >= "a" and ch <= "z"` in `next_sym`. -/
def isLowerCh (ch : Char) : Bool := 'a' ≤ ch && ch ≤ 'z'

/-- `(ch >= "a" and ch <= "z") or (ch == "_")`: the continuation
condition of the identifier-scanning loop in `next_sym`. -/
def isIdCh (ch : Char) : Bool := isLowerCh ch || ch == '_'

/-- The digit loop `int_val = int_val * 10 + ord(ch) - ord("0")`. -/
def digitsVal (l : List Char) : Nat :=
  l.foldl (fun a ch => a * 10 + (ch.toNat - 48)) 0

/-- The lexer `next_sym`.  The character stream is a `List Char` whose
head plays the role of the Python lookahead `ch`; the empty list is the
`EOF` state.  Whitespace (space, newline — exactly the characters the
source skips) is consumed by recursion; a digit or identifier run is the
maximal `takeWhile` prefix, exactly as the scanning `while` loops of the
source consume it.  The keyword list is `words = [do, else, if, while]`,
tried in that order; a non-keyword run is an identifier only when its
length is exactly 1, otherwise `syntax_error()`.  Any other character is
`syntax_error()`. -/
def nextTok : List Char → Except PErr (Tok × List Char)
  | [] => .ok (.EOI, [])
  | ch :: rest =>
    if ch = ' ' ∨ ch = '\n' then nextTok rest
    else if ch = '{' then .ok (.LBRA, rest)
    else if ch = '}' then .ok (.RBRA, rest)
    else if ch = '(' then .ok (.LPAR, rest)
    else if ch = ')' then .ok (.RPAR, rest)
    else if ch = '+' then .ok (.PLUS, rest)
    else if ch = '-' then .ok (.MINUS, rest)
    else if ch = '<' then .ok (.LESS, rest)
    else if ch = ';' then .ok (.SEMI, rest)
    else if ch = '=' then .ok (.EQUAL, rest)
    else if isDigitCh ch then
      .ok (.INT (digitsVal ((ch :: rest).takeWhile isDigitCh)),
           (ch :: rest).dropWhile isDigitCh)
    else if isLowerCh ch then
      let idName := (ch :: rest).takeWhile isIdCh
      let rest2 := (ch :: rest).dropWhile isIdCh
      if idName = ['d', 'o'] then .ok (.DO_SYM, rest2)
      else if idName = ['e', 'l', 's', 'e'] then .ok (.ELSE_SYM, rest2)
      else if idName = ['i', 'f'] then .ok (.IF_SYM, rest2)
      else if idName = ['w', 'h', 'i', 'l', 'e'] then .ok (.WHILE_SYM, rest2)
      else
        match idName with
        | [c] => .ok (.ID c, rest2)
        | _ => .error .synErr
    else .error .synErr

/-- Parser state: the one-token lookahead `sym` together with the
remaining character stream (the Python globals `sym` and the stdin
position). -/
abbrev PRes := Except PErr (Node × Tok × List Char)

mutual

/-- `paren_expr()`: require `(`, parse `expr`, require `)`. -/
def parenExprP : Nat → Tok → List Char → PRes
  | 0, _, _ => .error .noFuel
  | n + 1, t, l =>
    if t = .LPAR then
      match nextTok l with
      | .error e => .error e
      | .ok (t1, l1) =>
        match exprP n t1 l1 with
        | .error e => .error e
        | .ok (x, t2, l2) =>
          if t2 = .RPAR then
            match nextTok l2 with
            | .error e => .error e
            | .ok (t3, l3) => .ok (x, t3, l3)
          else .error .synErr
    else .error .synErr

/-- `term()`: identifier (`VAR` with `ord(id_name[0]) - ord('a')`),
integer literal (`CST`), otherwise `paren_expr`. -/
def termP : Nat → Tok → List Char → PRes
  | 0, _, _ => .error .noFuel
  | n + 1, t, l =>
    match t with
    | .ID ch =>
      match nextTok l with
      | .error e => .error e
      | .ok (t1, l1) => .ok (.VAR (ch.toNat - 97), t1, l1)
    | .INT v =>
      match nextTok l with
      | .error e => .error e
      | .ok (t1, l1) => .ok (.CST v, t1, l1)
    | _ => parenExprP n t l

/-- The `while sym in [PLUS, MINUS]` loop of `_sum()`, folding left. -/
def sumLoopP : Nat → Node → Tok → List Char → PRes
  | 0, _, _, _ => .error .noFuel
  | n + 1, x, t, l =>
    if t = .PLUS ∨ t = .MINUS then
      match nextTok l with
      | .error e => .error e
      | .ok (t1, l1) =>
        match termP n t1 l1 with
        | .error e => .error e
        | .ok (y, t2, l2) =>
          sumLoopP n (if t = .PLUS then .ADD x y else .SUB x y) t2 l2
    else .ok (x, t, l)

/-- `_sum()`: a left-associative chain of `term`s. -/
def sumP : Nat → Tok → List Char → PRes
  | 0, _, _ => .error .noFuel
  | n + 1, t, l =>
    match termP n t l with
    | .error e => .error e
    | .ok (x, t1, l1) => sumLoopP n x t1 l1

/-- `test()`: a sum, optionally followed by `<` and a second sum. -/
def testP : Nat → Tok → List Char → PRes
  | 0, _, _ => .error .noFuel
  | n + 1, t, l =>
    match sumP n t l with
    | .error e => .error e
    | .ok (x, t1, l1) =>
      if t1 = .LESS then
        match nextTok l1 with
        | .error e => .error e
        | .ok (t2, l2) =>
          match sumP n t2 l2 with
          | .error e => .error e
          | .ok (y, t3, l3) => .ok (.LT x y, t3, l3)
      else .ok (x, t1, l1)

/-- `expr()`: if the lookahead is not an identifier, just a `test`;
otherwise parse a `test` and reinterpret it as the target of an
assignment when it is exactly a bare `VAR` node and the next token
is `=` (right-associative via the recursive `expr` call). -/
def exprP : Nat → Tok → List Char → PRes
  | 0, _, _ => .error .noFuel
  | n + 1, t, l =>
    match t with
    | .ID _ =>
      match testP n t l with
      | .error e => .error e
      | .ok (x, t1, l1) =>
        match x, t1 with
        | .VAR i, .EQUAL =>
          match nextTok l1 with
          | .error e => .error e
          | .ok (t2, l2) =>
            match exprP n t2 l2 with
            | .error e => .error e
            | .ok (y, t3, l3) => .ok (.SET i y, t3, l3)
        | _, _ => .ok (x, t1, l1)
    | _ => testP n t l

/-- The `while sym != RBRA` loop of the block branch of `statement()`,
building a left-folded `SEQ` chain starting from `EMPTY`. -/
def stmtListP : Nat → Node → Tok → List Char → PRes
  | 0, _, _, _ => .error .noFuel
  | n + 1, x, t, l =>
    if t = .RBRA then
      match nextTok l with
      | .error e => .error e
      | .ok (t1, l1) => .ok (x, t1, l1)
    else
      match statementP n t l with
      | .error e => .error e
      | .ok (s, t1, l1) => stmtListP n (.SEQ x s) t1 l1

/-- `statement()`: dispatch on the lookahead. -/
def statementP : Nat → Tok → List Char → PRes
  | 0, _, _ => .error .noFuel
  | n + 1, t, l =>
    match t with
    | .IF_SYM =>
      match nextTok l with
      | .error e => .error e
      | .ok (t1, l1) =>
        match parenExprP n t1 l1 with
        | .error e => .error e
        | .ok (cond, t2, l2) =>
          match statementP n t2 l2 with
          | .error e => .error e
          | .ok (thn, t3, l3) =>
            if t3 = .ELSE_SYM then
              match nextTok l3 with
              | .error e => .error e
              | .ok (t4, l4) =>
                match statementP n t4 l4 with
                | .error e => .error e
                | .ok (els, t5, l5) => .ok (.IF2 cond thn els, t5, l5)
            else .ok (.IF1 cond thn, t3, l3)
    | .WHILE_SYM =>
      match nextTok l with
      | .error e => .error e
      | .ok (t1, l1) =>
        match parenExprP n t1 l1 with
        | .error e => .error e
        | .ok (cond, t2, l2) =>
          match statementP n t2 l2 with
          | .error e => .error e
          | .ok (body, t3, l3) => .ok (.WHILE cond body, t3, l3)
    | .DO_SYM =>
      match nextTok l with
      | .error e => .error e
      | .ok (t1, l1) =>
        match statementP n t1 l1 with
        | .error e => .error e
        | .ok (body, t2, l2) =>
          if t2 = .WHILE_SYM then
            match nextTok l2 with
            | .error e => .error e
            | .ok (t3, l3) =>
              match parenExprP n t3 l3 with
              | .error e => .error e
              | .ok (cond, t4, l4) =>
                if t4 = .SEMI then
                  match nextTok l4 with
                  | .error e => .error e
                  | .ok (t5, l5) => .ok (.DO body cond, t5, l5)
                else .error .synErr
          else .error .synErr
    | .SEMI =>
      match nextTok l with
      | .error e => .error e
      | .ok (t1, l1) => .ok (.EMPTY, t1, l1)
    | .LBRA =>
      match nextTok l with
      | .error e => .error e
      | .ok (t1, l1) => stmtListP n .EMPTY t1 l1
    | _ =>
      match exprP n t l with
      | .error e => .error e
      | .ok (x, t1, l1) =>
        if t1 = .SEMI then
          match nextTok l1 with
          | .error e => .error e
          | .ok (t2, l2) => .ok (.EXPR x, t2, l2)
        else .error .synErr

end

/-- `program()`: one `statement` wrapped in `PROG`; the token stream must
then be exhausted.  The initial lookahead character is `" "` in the
source (`ch: str = " "`), hence the prepended space. -/
def parseProgram (fuel : Nat) (input : List Char) : Except PErr Node :=
  match nextTok (' ' :: input) with
  | .error e => .error e
  | .ok (t, l) =>
    match statementP fuel t l with
    | .error e => .error e
    | .ok (x, t1, _) =>
      if t1 = .EOI then .ok (.PROG x) else .error .synErr

-- ------------------------------------------------------------------ --
-- Code generator                                                     --
-- ------------------------------------------------------------------ --

/-- Opcodes, the values of the `Instruction` enum. -/
def IFETCH : Int := 0
def ISTORE : Int := 1
def IPUSH : Int := 2
def IPOP : Int := 3
def IADD : Int := 4
def ISUB : Int := 5
def ILT : Int := 6
def JZ : Int := 7
def JNZ : Int := 8
def JMP : Int := 9
def HALT : Int := 10

/-- Code-generator state: the bytes written so far.  The Python globals
are the preallocated `_object` array and the cursor `here`; `here` always
equals the number of cells written (a `hole()` advances the cursor past a
still-zero cell, modelled by appending the placeholder `0`). -/
structure CSt where
  obj : List Int
deriving DecidableEq, Repr

/-- `g(c)`: write one byte at `here` and advance. -/
def g (v : Int) (s : CSt) : CSt := ⟨s.obj ++ [v]⟩

/-- `hole()`: advance `here` past one (placeholder) cell and return its
address. -/
def hole (s : CSt) : Nat × CSt := (s.obj.length, ⟨s.obj ++ [0]⟩)

/-- `fix(src, dst)`: `_object[src] = dst - src` — the patched
displacement is always relative to the displacement byte's own
address. -/
def fix (src : Nat) (dst : Nat) (s : CSt) : CSt :=
  ⟨s.obj.set src ((dst : Int) - (src : Int))⟩

/-- The code generator `c(x)`, a direct transcription with the mutable
buffer threaded as state. -/
def c : Node → CSt → CSt
  | .VAR i, s =>
    let s := g IFETCH s
    g i s
  | .CST v, s =>
    let s := g IPUSH s
    g v s
  | .ADD a b, s =>
    let s := c a s
    let s := c b s
    g IADD s
  | .SUB a b, s =>
    let s := c a s
    let s := c b s
    g ISUB s
  | .LT a b, s =>
    let s := c a s
    let s := c b s
    g ILT s
  | .SET i e, s =>
    let s := c e s
    let s := g ISTORE s
    g i s
  | .IF1 cond thn, s =>
    let s := c cond s
    let s := g JZ s
    let (p1, s) := hole s
    let s := c thn s
    fix p1 s.obj.length s
  | .IF2 cond thn els, s =>
    let s := c cond s
    let s := g JZ s
    let (p1, s) := hole s
    let s := c thn s
    let s := g JMP s
    let (p2, s) := hole s
    let s := fix p1 s.obj.length s
    let s := c els s
    fix p2 s.obj.length s
  | .WHILE cond body, s =>
    let p1 := s.obj.length
    let s := c cond s
    let s := g JZ s
    let (p2, s) := hole s
    let s := c body s
    let s := g JMP s
    let (p3, s) := hole s
    let s := fix p3 p1 s
    fix p2 s.obj.length s
  | .DO body cond, s =>
    let p1 := s.obj.length
    let s := c body s
    let s := c cond s
    let s := g JNZ s
    let (p2, s) := hole s
    fix p2 p1 s
  | .EMPTY, s => s
  | .SEQ a b, s =>
    let s := c a s
    c b s
  | .EXPR e, s =>
    let s := c e s
    g IPOP s
  | .PROG x, s =>
    let s := c x s
    g HALT s

/-- The bytecode produced for an AST by the main program
(`c(program())` starting from a fresh buffer). -/
def compileProg (x : Node) : List Int := (c x ⟨[]⟩).obj

/-- The normal form of the emitted code: `code x` is the byte sequence
the generator appends for `x`, with the backpatched displacements
written out explicitly (they are position-independent because `fix`
stores `dst - src`).  `c_obj` below proves `(c x s).obj = s.obj ++ code x`. -/
def code : Node → List Int
  | .VAR i => [IFETCH, i]
  | .CST v => [IPUSH, v]
  | .ADD a b => code a ++ code b ++ [IADD]
  | .SUB a b => code a ++ code b ++ [ISUB]
  | .LT a b => code a ++ code b ++ [ILT]
  | .SET i e => code e ++ [ISTORE, i]
  | .IF1 cond thn => code cond ++ [JZ, ((code thn).length : Int) + 1] ++ code thn
  | .IF2 cond thn els =>
      code cond ++ [JZ, ((code thn).length : Int) + 3] ++ code thn
        ++ [JMP, ((code els).length : Int) + 1] ++ code els
  | .WHILE cond body =>
      code cond ++ [JZ, ((code body).length : Int) + 3] ++ code body
        ++ [JMP, -(((code cond).length : Int) + (code body).length + 3)]
  | .DO body cond =>
      code body ++ code cond
        ++ [JNZ, -(((code body).length : Int) + (code cond).length + 1)]
  | .EMPTY => []
  | .SEQ a b => code a ++ code b
  | .EXPR e => code e ++ [IPOP]
  | .PROG x => code x ++ [HALT]

-- ------------------------------------------------------------------ --
-- Virtual machine                                                    --
-- ------------------------------------------------------------------ --

/-- VM state: program counter, operand stack (head = top, so the stack
length is the Python `sp`), and the 26 globals. -/
structure VMSt where
  pc : Nat
  stack : List Int
  gl : List Int
deriving DecidableEq, Repr

/-- Result of one decode-execute step: an ordinary step, the `HALT`
break, or a state on which the Python program faults with an uncaught
exception: an `IADD`/`ISUB` whose result does not fit the signed 32-bit
`array("i")` cells (`OverflowError`), a push with the 1000-cell operand
stack already full (`IndexError`), and the states generated code never
reaches (reads outside the emitted code, a pop of an empty stack, an
out-of-range global index, a jump to a negative address). -/
inductive StepRes where
  | next (s : VMSt)
  | halted (s : VMSt)
  | stuck
deriving DecidableEq, Repr

/-- One iteration of the `while True` decode loop of `run()`: decode the
opcode at `pc`, advance `pc` past it, execute.  Jump displacements are
added to `pc` while it points at the displacement byte (`pc += _object[pc]`),
and a not-taken conditional jump skips the displacement byte (`pc += 1`). -/
def step (cs : List Int) (s : VMSt) : StepRes :=
  match cs[s.pc]? with
  | none => .stuck
  | some op =>
    if op = IFETCH then
      match cs[s.pc + 1]? with
      | some i =>
        if 0 ≤ i ∧ i.toNat < s.gl.length then
          if s.stack.length < 1000 then
            .next ⟨s.pc + 2, s.gl.getD i.toNat 0 :: s.stack, s.gl⟩
          else .stuck
        else .stuck
      | none => .stuck
    else if op = ISTORE then
      match cs[s.pc + 1]?, s.stack with
      | some i, v :: st =>
        if 0 ≤ i ∧ i.toNat < s.gl.length then
          .next ⟨s.pc + 2, v :: st, s.gl.set i.toNat v⟩
        else .stuck
      | _, _ => .stuck
    else if op = IPUSH then
      match cs[s.pc + 1]? with
      | some v =>
        if s.stack.length < 1000 then .next ⟨s.pc + 2, v :: s.stack, s.gl⟩
        else .stuck
      | none => .stuck
    else if op = IPOP then
      match s.stack with
      | _ :: st => .next ⟨s.pc + 1, st, s.gl⟩
      | [] => .stuck
    else if op = IADD then
      match s.stack with
      | b :: a :: st =>
        if -2147483648 ≤ a + b ∧ a + b ≤ 2147483647 then
          .next ⟨s.pc + 1, (a + b) :: st, s.gl⟩
        else .stuck
      | _ => .stuck
    else if op = ISUB then
      match s.stack with
      | b :: a :: st =>
        if -2147483648 ≤ a - b ∧ a - b ≤ 2147483647 then
          .next ⟨s.pc + 1, (a - b) :: st, s.gl⟩
        else .stuck
      | _ => .stuck
    else if op = ILT then
      match s.stack with
      | b :: a :: st => .next ⟨s.pc + 1, (if a < b then 1 else 0) :: st, s.gl⟩
      | _ => .stuck
    else if op = JZ then
      match cs[s.pc + 1]?, s.stack with
      | some d, v :: st =>
        if v = 0 then
          if 0 ≤ (s.pc + 1 : Int) + d then
            .next ⟨((s.pc + 1 : Int) + d).toNat, st, s.gl⟩
          else .stuck
        else .next ⟨s.pc + 2, st, s.gl⟩
      | _, _ => .stuck
    else if op = JNZ then
      match cs[s.pc + 1]?, s.stack with
      | some d, v :: st =>
        if v ≠ 0 then
          if 0 ≤ (s.pc + 1 : Int) + d then
            .next ⟨((s.pc + 1 : Int) + d).toNat, st, s.gl⟩
          else .stuck
        else .next ⟨s.pc + 2, st, s.gl⟩
      | _, _ => .stuck
    else if op = JMP then
      match cs[s.pc + 1]? with
      | some d =>
        if 0 ≤ (s.pc + 1 : Int) + d then
          .next ⟨((s.pc + 1 : Int) + d).toNat, s.stack, s.gl⟩
        else .stuck
      | none => .stuck
    else if op = HALT then .halted ⟨s.pc + 1, s.stack, s.gl⟩
    else .stuck

/-- Iterate `step` exactly `k` times, requiring every step to be an
ordinary `.next` step. -/
def stepsN (cs : List Int) : Nat → VMSt → Option VMSt
  | 0, s => some s
  | k + 1, s =>
    match step cs s with
    | .next s1 => stepsN cs k s1
    | _ => none

/-- Fuelled execution result. -/
inductive RunRes where
  | halted (s : VMSt)
  | timeout (s : VMSt)
  | stuck
deriving DecidableEq, Repr

/-- `run()` with fuel: execute until `HALT` (or fault / fuel
exhaustion). -/
def run (cs : List Int) : Nat → VMSt → RunRes
  | 0, s => .timeout s
  | n + 1, s =>
    match step cs s with
    | .next s1 => run cs n s1
    | .halted s1 => .halted s1
    | .stuck => .stuck

-- ------------------------------------------------------------------ --
-- Well-formedness and denotation of expressions                      --
-- ------------------------------------------------------------------ --

/-- Expression nodes as produced by `expr()` (variable indices are in
0..25 because identifiers are single characters `a`..`z`). -/
def isE : Node → Bool
  | .VAR i => i < 26
  | .CST _ => true
  | .ADD a b => isE a && isE b
  | .SUB a b => isE a && isE b
  | .LT a b => isE a && isE b
  | .SET i e => i < 26 && isE e
  | _ => false

/-- Statement nodes as produced by `statement()`. -/
def isS : Node → Bool
  | .EMPTY => true
  | .EXPR e => isE e
  | .SEQ a b => isS a && isS b
  | .IF1 cond thn => isE cond && isS thn
  | .IF2 cond thn els => isE cond && isS thn && isS els
  | .WHILE cond body => isE cond && isS body
  | .DO body cond => isS body && isE cond
  | _ => false

/-- Program nodes as produced by `program()`. -/
def isP : Node → Bool
  | .PROG x => isS x
  | _ => false

/-- Denotation of an expression: its value and the updated globals
(assignments inside expressions update `globals` left-to-right,
innermost first — exactly the order the emitted code executes). -/
def evalE : Node → List Int → Int × List Int
  | .VAR i, gl => (gl.getD i 0, gl)
  | .CST v, gl => ((v : Int), gl)
  | .ADD a b, gl =>
    let (x, g1) := evalE a gl
    let (y, g2) := evalE b g1
    (x + y, g2)
  | .SUB a b, gl =>
    let (x, g1) := evalE a gl
    let (y, g2) := evalE b g1
    (x - y, g2)
  | .LT a b, gl =>
    let (x, g1) := evalE a gl
    let (y, g2) := evalE b g1
    ((if x < y then 1 else 0), g2)
  | .SET i e, gl =>
    let (v, g1) := evalE e gl
    (v, g1.set i v)
  | _, gl => (0, gl)

-- ------------------------------------------------------------------ --
-- Main program                                                       --
-- ------------------------------------------------------------------ --

/-- The report printed after execution: for each `i` in `range(26)` with
`_globals[i] != 0`, the line produced by `f"{(ord('a') + i)} = {_globals[i]}"`
— note the first interpolated value is the integer `ord('a') + i`,
not a character. -/
def report (gl : List Int) : List String :=
  ((List.range 26).filter (fun i => gl.getD i 0 ≠ 0)).map
    (fun i => toString (97 + i) ++ " = " ++ toString (gl.getD i 0))

/-- The constraint imposed by the Python byte buffer `array("b")`:
assigning a value outside -128..127 raises an uncaught `OverflowError`
(aborting the process).  `compileProg` lists the values the source
assigns into `_object`, so the Python compilation completes without
aborting exactly when every one of them is in range (and the programs
below stay far from the 1000-cell capacity). -/
def byteOk (l : List Int) : Bool :=
  l.all (fun b => -128 ≤ b && b ≤ 127)

/-- Observable outcome of one invocation of the main program. -/
inductive MainRes where
  /-- `syntax_error()`: print `syntax error` to stderr, exit 1,
  no result output. -/
  | synErrExit
  /-- Fuel artifact of the embedding (unbounded recursion/loop in the
  source). -/
  | noFuelRes
  /-- Uncaught `OverflowError` from writing an out-of-range byte into
  `_object` during code generation: the process aborts with a traceback,
  which is neither the `syntax error` diagnostic nor a result. -/
  | byteOverflowAbort
  /-- The VM faulted: an uncaught `OverflowError` (a 32-bit stack
  arithmetic result out of range) or `IndexError` (operand-stack
  capacity) aborts the process with a traceback mid-run; also covers
  decode states generated code never reaches. -/
  | runtimeAbort
  /-- Successful exit 0 after printing the report lines. -/
  | out (lines : List String)
deriving DecidableEq, Repr

/-- The `__main__` block: parse, compile (`c(program())`), zero the 26
globals, run, report.  The byte-range check stands for the
`OverflowError` the Python `array("b")` assignment raises during `c`. -/
def mainTiny (input : List Char) (pf vf : Nat) : MainRes :=
  match parseProgram pf input with
  | .error .synErr => .synErrExit
  | .error .noFuel => .noFuelRes
  | .ok x =>
    let cd := compileProg x
    if byteOk cd ∧ cd.length ≤ 1000 then
      match run cd vf ⟨0, [], List.replicate 26 0⟩ with
      | .halted s => .out (report s.gl)
      | .timeout _ => .noFuelRes
      | .stuck => .runtimeAbort
    else .byteOverflowAbort

/-- A right-nested chained assignment `v1 = v2 = ... = vn = K`. -/
def chain : List Nat → Node → Node
  | [], k => k
  | v :: vs, k => .SET v (chain vs k)

/-- Node count, the termination measure for the segment lemma. -/
def nsize : Node → Nat
  | .VAR _ => 1
  | .CST _ => 1
  | .ADD a b => nsize a + nsize b + 1
  | .SUB a b => nsize a + nsize b + 1
  | .LT a b => nsize a + nsize b + 1
  | .SET _ e => nsize e + 1
  | .IF1 a b => nsize a + nsize b + 1
  | .IF2 a b e => nsize a + nsize b + nsize e + 1
  | .WHILE a b => nsize a + nsize b + 1
  | .DO a b => nsize a + nsize b + 1
  | .EMPTY => 1
  | .SEQ a b => nsize a + nsize b + 1
  | .EXPR e => nsize e + 1
  | .PROG x => nsize x + 1

instance {ε α : Type} [DecidableEq ε] [DecidableEq α] : DecidableEq (Except ε α) :=
  fun x y =>
    match x, y with
    | .error e, .error f =>
      if h : e = f then .isTrue (by rw [h])
      else .isFalse (fun hh => h (Except.error.inj hh))
    | .error _, .ok _ => .isFalse (fun hh => Except.noConfusion hh)
    | .ok _, .error _ => .isFalse (fun hh => Except.noConfusion hh)
    | .ok a, .ok b =>
      if h : a = b then .isTrue (by rw [h])
      else .isFalse (fun hh => h (Except.ok.inj hh))

-- ------------------------------------------------------------------ --
-- List helpers                                                       --
-- ------------------------------------------------------------------ --

theorem set_append_right (l1 l2 : List Int) (k : Nat) (v : Int) :
    (l1 ++ l2).set (l1.length + k) v = l1 ++ l2.set k v := by
  induction l1 with
  | nil => simp
  | cons a l ih => simp [List.set, Nat.succ_add, ih]

theorem length_fix (src dst : Nat) (s : CSt) :
    (fix src dst s).obj.length = s.obj.length := by
  simp [fix]

theorem length_g (v : Int) (s : CSt) :
    (g v s).obj.length = s.obj.length + 1 := by
  simp [g]

-- ------------------------------------------------------------------ --
-- The code generator emits `code x`                                  --
-- ------------------------------------------------------------------ --

/-- Emission normal form: compiling `x` from any buffer state appends
exactly the bytes `code x` — the emitted bytes (all backpatched
displacements included) do not depend on what was compiled before. -/
theorem c_obj : ∀ (x : Node) (s : CSt), (c x s).obj = s.obj ++ code x := by
  intro x
  induction x with
  | VAR i => intro s; simp [c, code, g]
  | CST v => intro s; simp [c, code, g]
  | ADD a b iha ihb => intro s; simp [c, code, g, iha, ihb]
  | SUB a b iha ihb => intro s; simp [c, code, g, iha, ihb]
  | LT a b iha ihb => intro s; simp [c, code, g, iha, ihb]
  | SET i e ih => intro s; simp [c, code, g, ih]
  | IF1 cond thn ihc iht =>
    intro s
    simp [c, g, hole, fix, ihc, iht, code]
  | IF2 cond thn els ihc iht ihe =>
    intro s
    simp [c, g, hole, fix, ihc, iht, ihe, code]
    omega
  | WHILE cond body ihc ihb =>
    intro s
    simp [c, g, hole, fix, ihc, ihb, code]
    omega
  | DO body cond ihb ihc =>
    intro s
    simp [c, g, hole, fix, ihb, ihc, code]
    omega
  | EMPTY => intro s; simp [c, code]
  | SEQ a b iha ihb => intro s; simp [c, code, iha, ihb]
  | EXPR e ih => intro s; simp [c, code, g, ih]
  | PROG x ih => intro s; simp [c, code, g, ih]

-- ------------------------------------------------------------------ --
-- Segments of the code array                                         --
-- ------------------------------------------------------------------ --

/-- `SegAt cs p l`: the byte sequence `l` is embedded in the code array
`cs` starting at address `p`. -/
def SegAt (cs : List Int) (p : Nat) (l : List Int) : Prop :=
  ∀ k, k < l.length → cs[p + k]? = l[k]?

theorem segAt_left {cs : List Int} {p : Nat} {l1 l2 : List Int}
    (h : SegAt cs p (l1 ++ l2)) : SegAt cs p l1 := by
  intro k hk
  rw [h k (by simp; omega), List.getElem?_append_left hk]

theorem segAt_right {cs : List Int} {p : Nat} {l1 l2 : List Int}
    (h : SegAt cs p (l1 ++ l2)) : SegAt cs (p + l1.length) l2 := by
  intro k hk
  rw [Nat.add_assoc, h (l1.length + k) (by simp; omega),
    List.getElem?_append_right (by omega)]
  congr 1
  omega

theorem segAt_head {cs : List Int} {p : Nat} {a : Int} {l : List Int}
    (h : SegAt cs p (a :: l)) : cs[p]? = some a := by
  simpa using h 0 (by simp)

theorem segAt_tail {cs : List Int} {p : Nat} {a : Int} {l : List Int}
    (h : SegAt cs p (a :: l)) : SegAt cs (p + 1) l := by
  intro k hk
  rw [show p + 1 + k = p + (k + 1) by omega]
  simpa using h (k + 1) (by simpa using hk)

theorem segAt_of_eq {cs : List Int} {p : Nat} {l l' : List Int}
    (h : SegAt cs p l) (he : l = l') : SegAt cs p l' := he ▸ h

-- ------------------------------------------------------------------ --
-- stepsN algebra                                                     --
-- ------------------------------------------------------------------ --

theorem stepsN_trans {cs : List Int} {m n : Nat} {s t u : VMSt}
    (h1 : stepsN cs m s = some t) (h2 : stepsN cs n t = some u) :
    stepsN cs (m + n) s = some u := by
  induction m generalizing s with
  | zero => simp [stepsN] at h1; subst h1; simpa using h2
  | succ m ih =>
    rw [show m + 1 + n = (m + n) + 1 by omega]
    simp only [stepsN] at h1 ⊢
    cases hs : step cs s with
    | next s1 => rw [hs] at h1; exact ih h1
    | halted s1 => rw [hs] at h1; exact absurd h1 (by simp)
    | stuck => rw [hs] at h1; exact absurd h1 (by simp)

theorem stepsN_split {cs : List Int} {m n : Nat} {s u : VMSt}
    (h : stepsN cs (m + n) s = some u) :
    ∃ t, stepsN cs m s = some t ∧ stepsN cs n t = some u := by
  induction m generalizing s with
  | zero => exact ⟨s, rfl, by simpa using h⟩
  | succ m ih =>
    rw [show m + 1 + n = (m + n) + 1 by omega] at h
    simp only [stepsN] at h ⊢
    cases hs : step cs s with
    | next s1 =>
      rw [hs] at h
      exact ih h
    | halted s1 => rw [hs] at h; exact absurd h (by simp)
    | stuck => rw [hs] at h; exact absurd h (by simp)

theorem stepsN_le {cs : List Int} {m n : Nat} {s u : VMSt}
    (h : stepsN cs n s = some u) (hm : m ≤ n) :
    ∃ t, stepsN cs m s = some t := by
  obtain ⟨t, h1, _⟩ := stepsN_split (show stepsN cs (m + (n - m)) s = some u by
    rwa [show m + (n - m) = n by omega])
  exact ⟨t, h1⟩

theorem stepsN_one {cs : List Int} {s s1 : VMSt} (h : step cs s = .next s1) :
    stepsN cs 1 s = some s1 := by
  simp [stepsN, h]

/-- A nonempty all-`next` trace that changes the stack takes at least
one step; more simply, a 0-step trace is the identity. -/
theorem stepsN_zero {cs : List Int} {s t : VMSt}
    (h : stepsN cs 0 s = some t) : t = s := by
  simp [stepsN] at h
  exact h.symm

-- ------------------------------------------------------------------ --
-- Single-instruction step lemmas                                     --
-- ------------------------------------------------------------------ --

theorem step_ifetch {cs : List Int} {pc : Nat} {i : Nat} {stack gl : List Int}
    (h0 : cs[pc]? = some IFETCH) (h1 : cs[pc + 1]? = some (i : Int))
    (hi : i < gl.length) (hcap : stack.length < 1000) :
    step cs ⟨pc, stack, gl⟩ = .next ⟨pc + 2, gl.getD i 0 :: stack, gl⟩ := by
  simp [step, h0, h1, IFETCH, hi, hcap]

theorem step_ifetch_stuck {cs : List Int} {pc : Nat} {i : Nat}
    {stack gl : List Int}
    (h0 : cs[pc]? = some IFETCH) (h1 : cs[pc + 1]? = some (i : Int))
    (hi : i < gl.length) (hcap : ¬ stack.length < 1000) :
    step cs ⟨pc, stack, gl⟩ = .stuck := by
  simp [step, h0, h1, IFETCH, hi, hcap]

theorem step_istore {cs : List Int} {pc : Nat} {i : Nat} {v : Int}
    {st gl : List Int}
    (h0 : cs[pc]? = some ISTORE) (h1 : cs[pc + 1]? = some (i : Int))
    (hi : i < gl.length) :
    step cs ⟨pc, v :: st, gl⟩ = .next ⟨pc + 2, v :: st, gl.set i v⟩ := by
  simp [step, h0, h1, IFETCH, ISTORE, hi]

theorem step_ipush {cs : List Int} {pc : Nat} {v : Int} {stack gl : List Int}
    (h0 : cs[pc]? = some IPUSH) (h1 : cs[pc + 1]? = some v)
    (hcap : stack.length < 1000) :
    step cs ⟨pc, stack, gl⟩ = .next ⟨pc + 2, v :: stack, gl⟩ := by
  simp [step, h0, h1, IFETCH, ISTORE, IPUSH, hcap]

theorem step_ipush_stuck {cs : List Int} {pc : Nat} {v : Int}
    {stack gl : List Int}
    (h0 : cs[pc]? = some IPUSH) (h1 : cs[pc + 1]? = some v)
    (hcap : ¬ stack.length < 1000) :
    step cs ⟨pc, stack, gl⟩ = .stuck := by
  simp [step, h0, h1, IFETCH, ISTORE, IPUSH, hcap]

theorem step_ipop {cs : List Int} {pc : Nat} {v : Int} {st gl : List Int}
    (h0 : cs[pc]? = some IPOP) :
    step cs ⟨pc, v :: st, gl⟩ = .next ⟨pc + 1, st, gl⟩ := by
  simp [step, h0, IFETCH, ISTORE, IPUSH, IPOP]

theorem step_iadd {cs : List Int} {pc : Nat} {a b : Int} {st gl : List Int}
    (h0 : cs[pc]? = some IADD)
    (hr : -2147483648 ≤ a + b ∧ a + b ≤ 2147483647) :
    step cs ⟨pc, b :: a :: st, gl⟩ = .next ⟨pc + 1, (a + b) :: st, gl⟩ := by
  simp [step, h0, IFETCH, ISTORE, IPUSH, IPOP, IADD, hr.1, hr.2]

theorem step_iadd_stuck {cs : List Int} {pc : Nat} {a b : Int}
    {st gl : List Int}
    (h0 : cs[pc]? = some IADD)
    (hr : ¬(-2147483648 ≤ a + b ∧ a + b ≤ 2147483647)) :
    step cs ⟨pc, b :: a :: st, gl⟩ = .stuck := by
  simp only [step, h0, IFETCH, ISTORE, IPUSH, IPOP, IADD]
  norm_num
  intro h1 h2
  exact (hr ⟨by omega, by omega⟩).elim

theorem step_isub {cs : List Int} {pc : Nat} {a b : Int} {st gl : List Int}
    (h0 : cs[pc]? = some ISUB)
    (hr : -2147483648 ≤ a - b ∧ a - b ≤ 2147483647) :
    step cs ⟨pc, b :: a :: st, gl⟩ = .next ⟨pc + 1, (a - b) :: st, gl⟩ := by
  simp [step, h0, IFETCH, ISTORE, IPUSH, IPOP, IADD, ISUB, hr.1, hr.2]

theorem step_isub_stuck {cs : List Int} {pc : Nat} {a b : Int}
    {st gl : List Int}
    (h0 : cs[pc]? = some ISUB)
    (hr : ¬(-2147483648 ≤ a - b ∧ a - b ≤ 2147483647)) :
    step cs ⟨pc, b :: a :: st, gl⟩ = .stuck := by
  simp only [step, h0, IFETCH, ISTORE, IPUSH, IPOP, IADD, ISUB]
  norm_num
  intro h1 h2
  exact (hr ⟨by omega, by omega⟩).elim

theorem step_ilt {cs : List Int} {pc : Nat} {a b : Int} {st gl : List Int}
    (h0 : cs[pc]? = some ILT) :
    step cs ⟨pc, b :: a :: st, gl⟩
      = .next ⟨pc + 1, (if a < b then 1 else 0) :: st, gl⟩ := by
  simp [step, h0, IFETCH, ISTORE, IPUSH, IPOP, IADD, ISUB, ILT]

theorem step_jz_taken {cs : List Int} {pc : Nat} {d : Int} {st gl : List Int}
    {target : Nat}
    (h0 : cs[pc]? = some JZ) (h1 : cs[pc + 1]? = some d)
    (ht : (pc : Int) + 1 + d = (target : Nat)) :
    step cs ⟨pc, 0 :: st, gl⟩ = .next ⟨target, st, gl⟩ := by
  have hnn : 0 ≤ (pc : Int) + 1 + d := by rw [ht]; positivity
  simp only [step, h0, h1, IFETCH, ISTORE, IPUSH, IPOP, IADD, ISUB, ILT, JZ]
  norm_num
  rw [if_pos hnn, ht]
  simp

theorem step_jz_nottaken {cs : List Int} {pc : Nat} {d v : Int}
    {st gl : List Int}
    (h0 : cs[pc]? = some JZ) (h1 : cs[pc + 1]? = some d)
    (hv : v ≠ 0) :
    step cs ⟨pc, v :: st, gl⟩ = .next ⟨pc + 2, st, gl⟩ := by
  simp [step, h0, h1, IFETCH, ISTORE, IPUSH, IPOP, IADD, ISUB, ILT, JZ, hv]

theorem step_jnz_taken {cs : List Int} {pc : Nat} {d v : Int}
    {st gl : List Int} {target : Nat}
    (h0 : cs[pc]? = some JNZ) (h1 : cs[pc + 1]? = some d)
    (hv : v ≠ 0) (ht : (pc : Int) + 1 + d = (target : Nat)) :
    step cs ⟨pc, v :: st, gl⟩ = .next ⟨target, st, gl⟩ := by
  have hnn : 0 ≤ (pc : Int) + 1 + d := by rw [ht]; positivity
  simp only [step, h0, h1, IFETCH, ISTORE, IPUSH, IPOP, IADD, ISUB, ILT, JZ,
    JNZ]
  norm_num
  rw [if_neg (by simpa using hv), if_pos hnn, ht]
  simp

theorem step_jnz_nottaken {cs : List Int} {pc : Nat} {d : Int}
    {st gl : List Int}
    (h0 : cs[pc]? = some JNZ) (h1 : cs[pc + 1]? = some d) :
    step cs ⟨pc, 0 :: st, gl⟩ = .next ⟨pc + 2, st, gl⟩ := by
  simp [step, h0, h1, IFETCH, ISTORE, IPUSH, IPOP, IADD, ISUB, ILT, JZ, JNZ]

theorem step_jmp {cs : List Int} {pc : Nat} {d : Int} {stack gl : List Int}
    {target : Nat}
    (h0 : cs[pc]? = some JMP) (h1 : cs[pc + 1]? = some d)
    (ht : (pc : Int) + 1 + d = (target : Nat)) :
    step cs ⟨pc, stack, gl⟩ = .next ⟨target, stack, gl⟩ := by
  have hnn : 0 ≤ (pc : Int) + 1 + d := by rw [ht]; positivity
  simp only [step, h0, h1, IFETCH, ISTORE, IPUSH, IPOP, IADD, ISUB, ILT, JZ,
    JNZ, JMP]
  norm_num
  rw [if_pos hnn, ht]
  simp

theorem step_halt {cs : List Int} {pc : Nat} {stack gl : List Int}
    (h0 : cs[pc]? = some HALT) :
    step cs ⟨pc, stack, gl⟩ = .halted ⟨pc + 1, stack, gl⟩ := by
  simp [step, h0, IFETCH, ISTORE, IPUSH, IPOP, IADD, ISUB, ILT, JZ, JNZ, JMP,
    HALT]

-- ------------------------------------------------------------------ --
-- Evaluation preserves the globals' length                           --
-- ------------------------------------------------------------------ --

theorem evalE_len : ∀ (e : Node) (gl : List Int),
    ((evalE e gl).2).length = gl.length := by
  intro e
  induction e with
  | VAR i => intro gl; simp [evalE]
  | CST v => intro gl; simp [evalE]
  | ADD a b iha ihb => intro gl; simp [evalE]; rw [ihb, iha]
  | SUB a b iha ihb => intro gl; simp [evalE]; rw [ihb, iha]
  | LT a b iha ihb => intro gl; simp [evalE]; rw [ihb, iha]
  | SET i e ih => intro gl; simp [evalE]; rw [ih]
  | IF1 a b _ _ => intro gl; simp [evalE]
  | IF2 a b e _ _ _ => intro gl; simp [evalE]
  | WHILE a b _ _ => intro gl; simp [evalE]
  | DO a b _ _ => intro gl; simp [evalE]
  | EMPTY => intro gl; simp [evalE]
  | SEQ a b _ _ => intro gl; simp [evalE]
  | EXPR e _ => intro gl; simp [evalE]
  | PROG x _ => intro gl; simp [evalE]

-- ------------------------------------------------------------------ --
-- Compiled expressions execute to their denotation                   --
-- ------------------------------------------------------------------ --

/-- Running the code compiled for an expression either pushes exactly
the expression's value on the stack (performing its embedded
assignments) and falls through to the end of the expression's code
segment, or it reaches a state on which the VM faults — an `IADD`/`ISUB`
whose 32-bit result overflows, or a push onto a full 1000-cell stack. -/
theorem exprSteps : ∀ (e : Node), isE e = true →
    ∀ (cs : List Int) (p : Nat) (stack gl : List Int),
      SegAt cs p (code e) → gl.length = 26 →
      (∃ k, stepsN cs k ⟨p, stack, gl⟩
        = some ⟨p + (code e).length, (evalE e gl).1 :: stack, (evalE e gl).2⟩)
      ∨ (∃ k u, stepsN cs k ⟨p, stack, gl⟩ = some u ∧ step cs u = .stuck) := by
  intro e
  induction e with
  | VAR i =>
    intro he cs p stack gl hseg hgl
    simp only [isE, decide_eq_true_eq] at he
    by_cases hcap : stack.length < 1000
    · left
      refine ⟨1, ?_⟩
      rw [stepsN_one (step_ifetch (segAt_head hseg)
        (segAt_head (segAt_tail hseg)) (by omega) hcap)]
      simp [code, evalE]
    · right
      exact ⟨0, _, rfl, step_ifetch_stuck (segAt_head hseg)
        (segAt_head (segAt_tail hseg)) (by omega) hcap⟩
  | CST v =>
    intro he cs p stack gl hseg hgl
    by_cases hcap : stack.length < 1000
    · left
      refine ⟨1, ?_⟩
      rw [stepsN_one (step_ipush (segAt_head hseg)
        (segAt_head (segAt_tail hseg)) hcap)]
      simp [code, evalE]
    · right
      exact ⟨0, _, rfl, step_ipush_stuck (segAt_head hseg)
        (segAt_head (segAt_tail hseg)) hcap⟩
  | ADD a b iha ihb =>
    intro he cs p stack gl hseg hgl
    simp only [isE, Bool.and_eq_true] at he
    simp only [code] at hseg
    rcases iha he.1 cs p stack gl (segAt_left (segAt_left hseg)) hgl with
      ⟨k1, H1⟩ | ⟨k, u, T, S⟩
    · rcases ihb he.2 cs (p + (code a).length)
          ((evalE a gl).1 :: stack) (evalE a gl).2
          (segAt_right (segAt_left hseg)) (by rw [evalE_len, hgl]) with
        ⟨k2, H2⟩ | ⟨k, u, T, S⟩
      · have hop : cs[p + (code a).length + (code b).length]? = some IADD := by
          have := segAt_head (segAt_right hseg)
          rwa [List.length_append, ← Nat.add_assoc] at this
        by_cases hr : -2147483648 ≤ (evalE a gl).1 + (evalE b (evalE a gl).2).1
            ∧ (evalE a gl).1 + (evalE b (evalE a gl).2).1 ≤ 2147483647
        · have H3 : stepsN cs 1 ⟨p + (code a).length + (code b).length,
              (evalE b (evalE a gl).2).1 :: (evalE a gl).1 :: stack,
              (evalE b (evalE a gl).2).2⟩
            = some ⟨p + (code a).length + (code b).length + 1,
                ((evalE a gl).1 + (evalE b (evalE a gl).2).1) :: stack,
                (evalE b (evalE a gl).2).2⟩ :=
            stepsN_one (step_iadd hop hr)
          left
          refine ⟨k1 + k2 + 1, ?_⟩
          rw [stepsN_trans (stepsN_trans H1 H2) H3]
          simp [code, evalE]
          omega
        · right
          exact ⟨k1 + k2, _, stepsN_trans H1 H2, step_iadd_stuck hop hr⟩
      · exact Or.inr ⟨k1 + k, u, stepsN_trans H1 T, S⟩
    · exact Or.inr ⟨k, u, T, S⟩
  | SUB a b iha ihb =>
    intro he cs p stack gl hseg hgl
    simp only [isE, Bool.and_eq_true] at he
    simp only [code] at hseg
    rcases iha he.1 cs p stack gl (segAt_left (segAt_left hseg)) hgl with
      ⟨k1, H1⟩ | ⟨k, u, T, S⟩
    · rcases ihb he.2 cs (p + (code a).length)
          ((evalE a gl).1 :: stack) (evalE a gl).2
          (segAt_right (segAt_left hseg)) (by rw [evalE_len, hgl]) with
        ⟨k2, H2⟩ | ⟨k, u, T, S⟩
      · have hop : cs[p + (code a).length + (code b).length]? = some ISUB := by
          have := segAt_head (segAt_right hseg)
          rwa [List.length_append, ← Nat.add_assoc] at this
        by_cases hr : -2147483648 ≤ (evalE a gl).1 - (evalE b (evalE a gl).2).1
            ∧ (evalE a gl).1 - (evalE b (evalE a gl).2).1 ≤ 2147483647
        · have H3 : stepsN cs 1 ⟨p + (code a).length + (code b).length,
              (evalE b (evalE a gl).2).1 :: (evalE a gl).1 :: stack,
              (evalE b (evalE a gl).2).2⟩
            = some ⟨p + (code a).length + (code b).length + 1,
                ((evalE a gl).1 - (evalE b (evalE a gl).2).1) :: stack,
                (evalE b (evalE a gl).2).2⟩ :=
            stepsN_one (step_isub hop hr)
          left
          refine ⟨k1 + k2 + 1, ?_⟩
          rw [stepsN_trans (stepsN_trans H1 H2) H3]
          simp [code, evalE]
          omega
        · right
          exact ⟨k1 + k2, _, stepsN_trans H1 H2, step_isub_stuck hop hr⟩
      · exact Or.inr ⟨k1 + k, u, stepsN_trans H1 T, S⟩
    · exact Or.inr ⟨k, u, T, S⟩
  | LT a b iha ihb =>
    intro he cs p stack gl hseg hgl
    simp only [isE, Bool.and_eq_true] at he
    simp only [code] at hseg
    rcases iha he.1 cs p stack gl (segAt_left (segAt_left hseg)) hgl with
      ⟨k1, H1⟩ | ⟨k, u, T, S⟩
    · rcases ihb he.2 cs (p + (code a).length)
          ((evalE a gl).1 :: stack) (evalE a gl).2
          (segAt_right (segAt_left hseg)) (by rw [evalE_len, hgl]) with
        ⟨k2, H2⟩ | ⟨k, u, T, S⟩
      · have hop : cs[p + (code a).length + (code b).length]? = some ILT := by
          have := segAt_head (segAt_right hseg)
          rwa [List.length_append, ← Nat.add_assoc] at this
        have H3 : stepsN cs 1 ⟨p + (code a).length + (code b).length,
            (evalE b (evalE a gl).2).1 :: (evalE a gl).1 :: stack,
            (evalE b (evalE a gl).2).2⟩
          = some ⟨p + (code a).length + (code b).length + 1,
              (if (evalE a gl).1 < (evalE b (evalE a gl).2).1 then 1 else 0)
                :: stack,
              (evalE b (evalE a gl).2).2⟩ :=
          stepsN_one (step_ilt hop)
        left
        refine ⟨k1 + k2 + 1, ?_⟩
        rw [stepsN_trans (stepsN_trans H1 H2) H3]
        simp [code, evalE]
        omega
      · exact Or.inr ⟨k1 + k, u, stepsN_trans H1 T, S⟩
    · exact Or.inr ⟨k, u, T, S⟩
  | SET i e ih =>
    intro he cs p stack gl hseg hgl
    simp only [isE, Bool.and_eq_true, decide_eq_true_eq] at he
    simp only [code] at hseg
    rcases ih he.2 cs p stack gl (segAt_left hseg) hgl with
      ⟨k1, H1⟩ | ⟨k, u, T, S⟩
    · have htl := segAt_right hseg
      have hop : cs[p + (code e).length]? = some ISTORE := segAt_head htl
      have hargidx : cs[p + (code e).length + 1]? = some (i : Int) :=
        segAt_head (segAt_tail htl)
      have H2 : stepsN cs 1 ⟨p + (code e).length, (evalE e gl).1 :: stack,
          (evalE e gl).2⟩
        = some ⟨p + (code e).length + 2, (evalE e gl).1 :: stack,
            ((evalE e gl).2).set i (evalE e gl).1⟩ :=
        stepsN_one (step_istore hop hargidx (by rw [evalE_len, hgl]; exact he.1))
      left
      refine ⟨k1 + 1, ?_⟩
      rw [stepsN_trans H1 H2]
      simp [code, evalE]
      omega
    · exact Or.inr ⟨k, u, T, S⟩
  | IF1 a b _ _ => intro he; simp [isE] at he
  | IF2 a b e _ _ _ => intro he; simp [isE] at he
  | WHILE a b _ _ => intro he; simp [isE] at he
  | DO a b _ _ => intro he; simp [isE] at he
  | EMPTY => intro he; simp [isE] at he
  | SEQ a b _ _ => intro he; simp [isE] at he
  | EXPR e _ => intro he; simp [isE] at he
  | PROG x _ => intro he; simp [isE] at he

-- ------------------------------------------------------------------ --
-- Position/fuel cast helpers                                         --
-- ------------------------------------------------------------------ --

theorem exit_eq {cs : List Int} {k : Nat} {s : VMSt} {q q' : Nat}
    {stack gl2 : List Int}
    (H : stepsN cs k s = some ⟨q, stack, gl2⟩) (h : q' = q) :
    stepsN cs k s = some ⟨q', stack, gl2⟩ := by rw [h]; exact H

theorem entry_eq {cs : List Int} {k : Nat} {p p' : Nat} {stack gl : List Int}
    {X : Option VMSt}
    (H : stepsN cs k ⟨p, stack, gl⟩ = X) (h : p' = p) :
    stepsN cs k ⟨p', stack, gl⟩ = X := by rw [h]; exact H

theorem fuel_eq {cs : List Int} {k k' : Nat} {s : VMSt} {X : Option VMSt}
    (H : stepsN cs k s = X) (h : k' = k) : stepsN cs k' s = X := by
  rw [h]; exact H

theorem segAt_pos {cs : List Int} {p p' : Nat} {l : List Int}
    (h : SegAt cs p l) (he : p' = p) : SegAt cs p' l := by rw [he]; exact h

-- ------------------------------------------------------------------ --
-- The segment lemma: compiled statements balance the stack           --
-- ------------------------------------------------------------------ --

/-- Running the code compiled for a statement from its entry, with any
fuel `n`: either the execution exits the statement's code segment —
necessarily at its end, with the operand stack exactly as it was on
entry — or it is still running (every one of the `n` steps was an
ordinary step), or it reaches a faulting state (a 32-bit arithmetic
overflow or a full operand stack, aborting the process).  In particular
a statement's code can neither halt nor escape anywhere else, and it
never changes the stack height. -/
theorem segRun : ∀ (N : Nat), ∀ (n : Nat) (st : Node), n + nsize st ≤ N →
    isS st = true →
    ∀ (cs : List Int) (p : Nat) (stack gl : List Int),
      SegAt cs p (code st) → gl.length = 26 →
      (∃ k gl2, k ≤ n ∧ gl2.length = 26 ∧
        stepsN cs k ⟨p, stack, gl⟩
          = some ⟨p + (code st).length, stack, gl2⟩)
      ∨ (∃ s2, stepsN cs n ⟨p, stack, gl⟩ = some s2)
      ∨ (∃ k u, stepsN cs k ⟨p, stack, gl⟩ = some u ∧ step cs u = .stuck) := by
  intro N
  induction N using Nat.strong_induction_on with
  | _ N IH =>
  intro n st hsz hs cs p stack gl hseg hgl
  cases st with
  | VAR i => simp [isS] at hs
  | CST v => simp [isS] at hs
  | ADD a b => simp [isS] at hs
  | SUB a b => simp [isS] at hs
  | LT a b => simp [isS] at hs
  | SET i e => simp [isS] at hs
  | PROG x => simp [isS] at hs
  | EMPTY =>
    left
    exact ⟨0, gl, Nat.zero_le n, hgl, by simp [stepsN, code]⟩
  | EXPR e =>
    simp only [isS] at hs
    simp only [code] at hseg
    rcases exprSteps e hs cs p stack gl (segAt_left hseg) hgl with
      ⟨k1, H1⟩ | F
    · have hop : cs[p + (code e).length]? = some IPOP :=
        segAt_head (segAt_right hseg)
      have H2 : stepsN cs 1 ⟨p + (code e).length, (evalE e gl).1 :: stack,
          (evalE e gl).2⟩
          = some ⟨p + (code e).length + 1, stack, (evalE e gl).2⟩ :=
        stepsN_one (step_ipop hop)
      have Full := stepsN_trans H1 H2
      by_cases hk : k1 + 1 ≤ n
      · left
        refine ⟨k1 + 1, (evalE e gl).2, hk, by rw [evalE_len, hgl], ?_⟩
        exact exit_eq Full (by simp [code]; omega)
      · exact Or.inr (Or.inl (stepsN_le Full (by omega)))
    · exact Or.inr (Or.inr F)
  | SEQ a b =>
    simp only [isS, Bool.and_eq_true] at hs
    simp only [code] at hseg
    rcases IH (n + nsize a) (by simp [nsize] at hsz ⊢; omega) n a le_rfl hs.1
        cs p stack gl (segAt_left hseg) hgl with
      ⟨k1, gl2, hk1, hgl2, Ha⟩ | ⟨s2, Hb⟩ | ⟨k, u, T, S⟩
    · rcases IH ((n - k1) + nsize b) (by simp [nsize] at hsz ⊢; omega)
          (n - k1) b le_rfl hs.2 cs (p + (code a).length) stack gl2
          (segAt_right hseg) hgl2 with
        ⟨k2, gl3, hk2, hgl3, Hb2⟩ | ⟨s2, Hb2⟩ | ⟨k, u, T, S⟩
      · left
        refine ⟨k1 + k2, gl3, by omega, hgl3, ?_⟩
        exact exit_eq (stepsN_trans Ha Hb2) (by simp [code]; omega)
      · exact Or.inr (Or.inl ⟨s2, fuel_eq (stepsN_trans Ha Hb2) (by omega)⟩)
      · exact Or.inr (Or.inr ⟨k1 + k, u, stepsN_trans Ha T, S⟩)
    · exact Or.inr (Or.inl ⟨s2, Hb⟩)
    · exact Or.inr (Or.inr ⟨k, u, T, S⟩)
  | IF1 cnd thn =>
    simp only [isS, Bool.and_eq_true] at hs
    simp only [code] at hseg
    have hcnd := segAt_left (segAt_left hseg)
    have hjz := segAt_head (segAt_right (segAt_left hseg))
    have hd : cs[p + (code cnd).length + 1]? = some ((code thn).length + 1) :=
      segAt_head (segAt_tail (segAt_right (segAt_left hseg)))
    have hthn : SegAt cs (p + (code cnd).length + 2) (code thn) :=
      segAt_pos (segAt_right hseg) (by simp; omega)
    rcases exprSteps cnd hs.1 cs p stack gl hcnd hgl with ⟨k1, H1⟩ | F
    · by_cases hn : n ≤ k1
      · exact Or.inr (Or.inl (stepsN_le H1 hn))
      by_cases hv : (evalE cnd gl).1 = 0
      · rw [hv] at H1
        have H2 : stepsN cs 1 ⟨p + (code cnd).length, 0 :: stack,
            (evalE cnd gl).2⟩
            = some ⟨p + (code cnd).length + 2 + (code thn).length, stack,
                (evalE cnd gl).2⟩ :=
          stepsN_one (step_jz_taken hjz hd (by push_cast; ring))
        left
        refine ⟨k1 + 1, (evalE cnd gl).2, by omega, by rw [evalE_len, hgl], ?_⟩
        exact exit_eq (stepsN_trans H1 H2) (by simp [code]; omega)
      · have H2 : stepsN cs 1 ⟨p + (code cnd).length,
            (evalE cnd gl).1 :: stack, (evalE cnd gl).2⟩
            = some ⟨p + (code cnd).length + 2, stack, (evalE cnd gl).2⟩ :=
          stepsN_one (step_jz_nottaken hjz hd hv)
        rcases IH ((n - (k1 + 1)) + nsize thn)
            (by simp [nsize] at hsz ⊢; omega)
            (n - (k1 + 1)) thn le_rfl hs.2 cs (p + (code cnd).length + 2)
            stack (evalE cnd gl).2 hthn (by rw [evalE_len, hgl]) with
          ⟨k2, gl2, hk2, hgl2, H3⟩ | ⟨s2, H3⟩ | ⟨k, u, T, S⟩
        · left
          refine ⟨k1 + 1 + k2, gl2, by omega, hgl2, ?_⟩
          exact exit_eq (stepsN_trans (stepsN_trans H1 H2) H3)
            (by simp [code]; omega)
        · exact Or.inr (Or.inl ⟨s2,
            fuel_eq (stepsN_trans (stepsN_trans H1 H2) H3) (by omega)⟩)
        · exact Or.inr (Or.inr ⟨k1 + 1 + k, u,
            stepsN_trans (stepsN_trans H1 H2) T, S⟩)
    · exact Or.inr (Or.inr F)
  | IF2 cnd thn els =>
    simp only [isS, Bool.and_eq_true] at hs
    simp only [code] at hseg
    have hcnd := segAt_left (segAt_left (segAt_left (segAt_left hseg)))
    have hpair := segAt_right (segAt_left (segAt_left (segAt_left hseg)))
    have hjz := segAt_head hpair
    have hd1 : cs[p + (code cnd).length + 1]? = some ((code thn).length + 3) :=
      segAt_head (segAt_tail hpair)
    have hthn : SegAt cs (p + (code cnd).length + 2) (code thn) :=
      segAt_pos (segAt_right (segAt_left (segAt_left hseg))) (by simp; omega)
    have hpair2 : SegAt cs (p + (code cnd).length + 2 + (code thn).length)
        [JMP, ((code els).length : Int) + 1] :=
      segAt_pos (segAt_right (segAt_left hseg)) (by simp; omega)
    have hjmp := segAt_head hpair2
    have hd2 := segAt_head (segAt_tail hpair2)
    have hels : SegAt cs (p + (code cnd).length + 2 + (code thn).length + 2)
        (code els) :=
      segAt_pos (segAt_right hseg) (by simp; omega)
    rcases exprSteps cnd hs.1.1 cs p stack gl hcnd hgl with ⟨k1, H1⟩ | F
    · by_cases hn : n ≤ k1
      · exact Or.inr (Or.inl (stepsN_le H1 hn))
      by_cases hv : (evalE cnd gl).1 = 0
      · rw [hv] at H1
        have H2 : stepsN cs 1 ⟨p + (code cnd).length, 0 :: stack,
            (evalE cnd gl).2⟩
            = some ⟨p + (code cnd).length + 2 + (code thn).length + 2, stack,
                (evalE cnd gl).2⟩ :=
          stepsN_one (step_jz_taken hjz hd1 (by push_cast; ring))
        rcases IH ((n - (k1 + 1)) + nsize els)
            (by simp [nsize] at hsz ⊢; omega)
            (n - (k1 + 1)) els le_rfl hs.2 cs
            (p + (code cnd).length + 2 + (code thn).length + 2) stack
            (evalE cnd gl).2 hels (by rw [evalE_len, hgl]) with
          ⟨k2, gl2, hk2, hgl2, H3⟩ | ⟨s2, H3⟩ | ⟨k, u, T, S⟩
        · left
          refine ⟨k1 + 1 + k2, gl2, by omega, hgl2, ?_⟩
          exact exit_eq (stepsN_trans (stepsN_trans H1 H2) H3)
            (by simp [code]; omega)
        · exact Or.inr (Or.inl ⟨s2,
            fuel_eq (stepsN_trans (stepsN_trans H1 H2) H3) (by omega)⟩)
        · exact Or.inr (Or.inr ⟨k1 + 1 + k, u,
            stepsN_trans (stepsN_trans H1 H2) T, S⟩)
      · have H2 : stepsN cs 1 ⟨p + (code cnd).length,
            (evalE cnd gl).1 :: stack, (evalE cnd gl).2⟩
            = some ⟨p + (code cnd).length + 2, stack, (evalE cnd gl).2⟩ :=
          stepsN_one (step_jz_nottaken hjz hd1 hv)
        rcases IH ((n - (k1 + 1)) + nsize thn)
            (by simp [nsize] at hsz ⊢; omega)
            (n - (k1 + 1)) thn le_rfl hs.1.2 cs (p + (code cnd).length + 2)
            stack (evalE cnd gl).2 hthn (by rw [evalE_len, hgl]) with
          ⟨k2, gl2, hk2, hgl2, H3⟩ | ⟨s2, H3⟩ | ⟨k, u, T, S⟩
        · have Comb := stepsN_trans (stepsN_trans H1 H2) H3
          by_cases hKn : k1 + 1 + k2 = n
          · exact Or.inr (Or.inl ⟨_, fuel_eq Comb (by omega)⟩)
          · have H4 : stepsN cs 1
                ⟨p + (code cnd).length + 2 + (code thn).length, stack, gl2⟩
                = some ⟨p + (code cnd).length + 2 + (code thn).length + 2
                    + (code els).length, stack, gl2⟩ :=
              stepsN_one (step_jmp hjmp hd2 (by push_cast; ring))
            left
            refine ⟨k1 + 1 + k2 + 1, gl2, by omega, hgl2, ?_⟩
            exact exit_eq (stepsN_trans Comb H4) (by simp [code]; omega)
        · exact Or.inr (Or.inl ⟨s2,
            fuel_eq (stepsN_trans (stepsN_trans H1 H2) H3) (by omega)⟩)
        · exact Or.inr (Or.inr ⟨k1 + 1 + k, u,
            stepsN_trans (stepsN_trans H1 H2) T, S⟩)
    · exact Or.inr (Or.inr F)
  | WHILE cnd body =>
    have hsegU := hseg
    simp only [code] at hsegU
    simp only [isS, Bool.and_eq_true] at hs
    have hcnd := segAt_left (segAt_left (segAt_left hsegU))
    have hpair := segAt_right (segAt_left (segAt_left hsegU))
    have hjz := segAt_head hpair
    have hd1 : cs[p + (code cnd).length + 1]?
        = some ((code body).length + 3) :=
      segAt_head (segAt_tail hpair)
    have hbody : SegAt cs (p + (code cnd).length + 2) (code body) :=
      segAt_pos (segAt_right (segAt_left hsegU)) (by simp; omega)
    have hpair2 : SegAt cs (p + (code cnd).length + 2 + (code body).length)
        [JMP, -(((code cnd).length : Int) + (code body).length + 3)] :=
      segAt_pos (segAt_right hsegU) (by simp; omega)
    have hjmp := segAt_head hpair2
    have hd2 := segAt_head (segAt_tail hpair2)
    rcases exprSteps cnd hs.1 cs p stack gl hcnd hgl with ⟨k1, H1⟩ | F
    · by_cases hn : n ≤ k1
      · exact Or.inr (Or.inl (stepsN_le H1 hn))
      by_cases hv : (evalE cnd gl).1 = 0
      · rw [hv] at H1
        have H2 : stepsN cs 1 ⟨p + (code cnd).length, 0 :: stack,
            (evalE cnd gl).2⟩
            = some ⟨p + (code cnd).length + 2 + (code body).length + 2, stack,
                (evalE cnd gl).2⟩ :=
          stepsN_one (step_jz_taken hjz hd1 (by push_cast; ring))
        left
        refine ⟨k1 + 1, (evalE cnd gl).2, by omega, by rw [evalE_len, hgl], ?_⟩
        exact exit_eq (stepsN_trans H1 H2) (by simp [code]; omega)
      · have H2 : stepsN cs 1 ⟨p + (code cnd).length,
            (evalE cnd gl).1 :: stack, (evalE cnd gl).2⟩
            = some ⟨p + (code cnd).length + 2, stack, (evalE cnd gl).2⟩ :=
          stepsN_one (step_jz_nottaken hjz hd1 hv)
        rcases IH ((n - (k1 + 1)) + nsize body)
            (by simp [nsize] at hsz ⊢; omega)
            (n - (k1 + 1)) body le_rfl hs.2 cs (p + (code cnd).length + 2)
            stack (evalE cnd gl).2 hbody (by rw [evalE_len, hgl]) with
          ⟨k2, gl2, hk2, hgl2, H3⟩ | ⟨s2, H3⟩ | ⟨k, u, T, S⟩
        · have Comb := stepsN_trans (stepsN_trans H1 H2) H3
          by_cases hKn : k1 + 1 + k2 = n
          · exact Or.inr (Or.inl ⟨_, fuel_eq Comb (by omega)⟩)
          · have H4 : stepsN cs 1
                ⟨p + (code cnd).length + 2 + (code body).length, stack, gl2⟩
                = some ⟨p, stack, gl2⟩ :=
              stepsN_one (step_jmp hjmp hd2 (by push_cast; ring))
            have Comb2 := stepsN_trans Comb H4
            rcases IH ((n - (k1 + 1 + k2 + 1)) + nsize (Node.WHILE cnd body))
                (by simp [nsize] at hsz ⊢; omega)
                (n - (k1 + 1 + k2 + 1)) (Node.WHILE cnd body) le_rfl
                (by simp [isS, hs.1, hs.2]) cs p stack gl2 hseg hgl2 with
              ⟨k3, gl3, hk3, hgl3, H5⟩ | ⟨s2, H5⟩ | ⟨k, u, T, S⟩
            · left
              refine ⟨k1 + 1 + k2 + 1 + k3, gl3, by omega, hgl3, ?_⟩
              exact stepsN_trans Comb2 H5
            · exact Or.inr (Or.inl ⟨s2,
                fuel_eq (stepsN_trans Comb2 H5) (by omega)⟩)
            · exact Or.inr (Or.inr ⟨k1 + 1 + k2 + 1 + k, u,
                stepsN_trans Comb2 T, S⟩)
        · exact Or.inr (Or.inl ⟨s2,
            fuel_eq (stepsN_trans (stepsN_trans H1 H2) H3) (by omega)⟩)
        · exact Or.inr (Or.inr ⟨k1 + 1 + k, u,
            stepsN_trans (stepsN_trans H1 H2) T, S⟩)
    · exact Or.inr (Or.inr F)
  | DO body cnd =>
    have hsegU := hseg
    simp only [code] at hsegU
    simp only [isS, Bool.and_eq_true] at hs
    have hbody := segAt_left (segAt_left hsegU)
    have hcnd := segAt_right (segAt_left hsegU)
    have hpair : SegAt cs (p + (code body).length + (code cnd).length)
        [JNZ, -(((code body).length : Int) + (code cnd).length + 1)] :=
      segAt_pos (segAt_right hsegU) (by simp; omega)
    have hjnz := segAt_head hpair
    have hd1 := segAt_head (segAt_tail hpair)
    rcases IH (n + nsize body) (by simp [nsize] at hsz ⊢; omega) n body le_rfl
        hs.1 cs p stack gl hbody hgl with
      ⟨k1, gl1, hk1, hgl1, H1⟩ | ⟨s2, H1⟩ | ⟨k, u, T, S⟩
    · rcases exprSteps cnd hs.2 cs (p + (code body).length) stack gl1 hcnd
          hgl1 with ⟨k2, H2⟩ | ⟨k, u, T, S⟩
      · have Comb := stepsN_trans H1 H2
        by_cases hn2 : n ≤ k1 + k2
        · exact Or.inr (Or.inl (stepsN_le Comb hn2))
        by_cases hv : (evalE cnd gl1).1 = 0
        · rw [hv] at Comb
          have H3 : stepsN cs 1 ⟨p + (code body).length + (code cnd).length,
              0 :: stack, (evalE cnd gl1).2⟩
              = some ⟨p + (code body).length + (code cnd).length + 2, stack,
                  (evalE cnd gl1).2⟩ :=
            stepsN_one (step_jnz_nottaken hjnz hd1)
          left
          refine ⟨k1 + k2 + 1, (evalE cnd gl1).2, by omega,
            by rw [evalE_len, hgl1], ?_⟩
          exact exit_eq (stepsN_trans Comb H3) (by simp [code]; omega)
        · have H3 : stepsN cs 1 ⟨p + (code body).length + (code cnd).length,
              (evalE cnd gl1).1 :: stack, (evalE cnd gl1).2⟩
              = some ⟨p, stack, (evalE cnd gl1).2⟩ :=
            stepsN_one (step_jnz_taken hjnz hd1 hv (by push_cast; ring))
          have Comb2 := stepsN_trans Comb H3
          by_cases hKn : k1 + k2 + 1 = n
          · exact Or.inr (Or.inl ⟨_, fuel_eq Comb2 (by omega)⟩)
          · rcases IH ((n - (k1 + k2 + 1)) + nsize (Node.DO body cnd))
                (by simp [nsize] at hsz ⊢; omega)
                (n - (k1 + k2 + 1)) (Node.DO body cnd) le_rfl
                (by simp [isS, hs.1, hs.2]) cs p stack (evalE cnd gl1).2 hseg
                (by rw [evalE_len, hgl1]) with
              ⟨k3, gl3, hk3, hgl3, H5⟩ | ⟨s2, H5⟩ | ⟨k, u, T, S⟩
            · left
              refine ⟨k1 + k2 + 1 + k3, gl3, by omega, hgl3, ?_⟩
              exact stepsN_trans Comb2 H5
            · exact Or.inr (Or.inl ⟨s2,
                fuel_eq (stepsN_trans Comb2 H5) (by omega)⟩)
            · exact Or.inr (Or.inr ⟨k1 + k2 + 1 + k, u,
                stepsN_trans Comb2 T, S⟩)
      · exact Or.inr (Or.inr ⟨k1 + k, u, stepsN_trans H1 T, S⟩)
    · exact Or.inr (Or.inl ⟨s2, H1⟩)
    · exact Or.inr (Or.inr ⟨k, u, T, S⟩)

-- ------------------------------------------------------------------ --
-- From `run` to traces and back                                      --
-- ------------------------------------------------------------------ --

theorem run_halted {cs : List Int} {n : Nat} {s sf : VMSt}
    (h : run cs n s = .halted sf) :
    ∃ k t, k < n ∧ stepsN cs k s = some t ∧ step cs t = .halted sf := by
  induction n generalizing s with
  | zero => simp [run] at h
  | succ n ih =>
    simp only [run] at h
    cases hs : step cs s with
    | next s1 =>
      rw [hs] at h
      obtain ⟨k, t, hk, h1, h2⟩ := ih h
      exact ⟨k + 1, t, by omega, by simp [stepsN, hs, h1], h2⟩
    | halted s1 =>
      rw [hs] at h
      cases h
      exact ⟨0, s, by omega, rfl, hs⟩
    | stuck => rw [hs] at h; cases h

theorem nonnext_stepsN_none {cs : List Int} {t : VMSt}
    (H : ∀ s1, step cs t ≠ .next s1) : ∀ j, 1 ≤ j → stepsN cs j t = none := by
  intro j hj
  obtain ⟨j2, rfl⟩ : ∃ j2, j = j2 + 1 := ⟨j - 1, by omega⟩
  rw [show j2 + 1 = 1 + j2 by omega]
  cases hx : stepsN cs (1 + j2) t with
  | none => rfl
  | some u =>
    obtain ⟨w, W1, _⟩ := stepsN_split hx
    simp only [stepsN] at W1
    cases hs : step cs t with
    | next s1 => exact absurd hs (H s1)
    | halted s1 => cases W1
    | stuck => cases W1

/-- A trace ending in a halt and a trace ending in a fault cannot start
from the same state: the VM is deterministic. -/
theorem trace_conflict {cs : List Int} {s0 t u sf : VMSt} {K k : Nat}
    (T : stepsN cs K s0 = some t) (H : step cs t = .halted sf)
    (F : stepsN cs k s0 = some u) (S : step cs u = .stuck) : False := by
  rcases Nat.le_total k K with hle | hle
  · obtain ⟨u2, F1, F2⟩ := stepsN_split
      (show stepsN cs (k + (K - k)) s0 = some t by
        rwa [show k + (K - k) = K by omega])
    rw [F] at F1
    obtain rfl := Option.some.inj F1
    rcases Nat.eq_zero_or_pos (K - k) with h0 | hpos
    · rw [h0] at F2
      rw [← stepsN_zero F2] at S
      rw [H] at S
      cases S
    · rw [nonnext_stepsN_none (fun s1 hn => by rw [S] at hn; cases hn)
        (K - k) hpos] at F2
      cases F2
  · obtain ⟨t2, T1, T2⟩ := stepsN_split
      (show stepsN cs (K + (k - K)) s0 = some u by
        rwa [show K + (k - K) = k by omega])
    rw [T] at T1
    obtain rfl := Option.some.inj T1
    rcases Nat.eq_zero_or_pos (k - K) with h0 | hpos
    · rw [h0] at T2
      rw [← stepsN_zero T2] at H
      rw [S] at H
      cases H
    · rw [nonnext_stepsN_none (fun s1 hn => by rw [H] at hn; cases hn)
        (k - K) hpos] at T2
      cases T2

theorem segAt_refl (cs : List Int) : SegAt cs 0 cs := by
  intro k _
  simp

theorem compileProg_eq (x : Node) : compileProg x = code x := by
  simp [compileProg, c_obj]

/-- The stack-balance invariant: if the VM, started on the bytecode
compiled for a program with an empty stack, reaches the `HALT`
instruction, the operand stack is empty there (and stays so in the
final state). -/
theorem prog_balanced {body : Node} (hb : isS body = true) {gl : List Int}
    (hgl : gl.length = 26) {fuel : Nat} {sf : VMSt}
    (h : run (compileProg (Node.PROG body)) fuel ⟨0, [], gl⟩ = .halted sf) :
    sf.stack = [] := by
  rw [compileProg_eq] at h
  obtain ⟨k, t, hk, Tr, Hstep⟩ := run_halted h
  have hseg : SegAt (code (Node.PROG body)) 0 (code body) := by
    have := segAt_refl (code (Node.PROG body))
    rw [show code (Node.PROG body) = code body ++ [HALT] from rfl] at this ⊢
    exact segAt_left this
  have hHalt : (code (Node.PROG body))[(code body).length]? = some HALT := by
    have := segAt_refl (code (Node.PROG body))
    rw [show code (Node.PROG body) = code body ++ [HALT] from rfl] at this ⊢
    exact segAt_head (segAt_pos (segAt_right this) (by omega))
  rcases segRun ((k + 1) + nsize body) (k + 1) body le_rfl hb
      (code (Node.PROG body)) 0 [] gl hseg hgl with
    ⟨k1, gl2, hk1, _, Ha⟩ | ⟨s2, Hb⟩ | ⟨k2, u, T2, S2⟩
  · have Ha' : stepsN (code (Node.PROG body)) k1 ⟨0, [], gl⟩
        = some ⟨(code body).length, [], gl2⟩ := exit_eq Ha (by omega)
    have hstepE : step (code (Node.PROG body)) ⟨(code body).length, [], gl2⟩
        = .halted ⟨(code body).length + 1, [], gl2⟩ := step_halt hHalt
    rcases Nat.lt_or_ge k1 (k + 1) with hlt | hge
    · -- k1 ≤ k : split the k-step trace at k1
      obtain ⟨t1, T1, T2⟩ := stepsN_split
        (show stepsN (code (Node.PROG body)) (k1 + (k - k1)) ⟨0, [], gl⟩
          = some t by rwa [show k1 + (k - k1) = k by omega])
      rw [Ha'] at T1
      have ht1 : t1 = ⟨(code body).length, [], gl2⟩ := by
        exact (Option.some.inj T1).symm
      subst ht1
      rcases Nat.eq_zero_or_pos (k - k1) with h0 | hpos
      · rw [h0] at T2
        have := stepsN_zero T2
        rw [← this] at hstepE
        rw [hstepE] at Hstep
        cases Hstep
        rfl
      · obtain ⟨u, U1, _⟩ := stepsN_split
          (show stepsN (code (Node.PROG body)) (1 + (k - k1 - 1))
            ⟨(code body).length, [], gl2⟩ = some t by
              rwa [show 1 + (k - k1 - 1) = k - k1 by omega])
        rw [show stepsN (code (Node.PROG body)) 1 ⟨(code body).length, [], gl2⟩
            = none by simp [stepsN, hstepE]] at U1
        cases U1
    · -- k1 = k + 1 : the trace would have to step past the halt
      have hk1e : k1 = k + 1 := by omega
      rw [hk1e] at Ha'
      obtain ⟨t1, T1, T2⟩ := stepsN_split
        (show stepsN (code (Node.PROG body)) (k + 1) ⟨0, [], gl⟩
          = some ⟨(code body).length, [], gl2⟩ from Ha')
      rw [Tr] at T1
      have ht1 : t1 = t := (Option.some.inj T1).symm
      subst ht1
      rw [show stepsN (code (Node.PROG body)) 1 t1 = none by
        simp [stepsN, Hstep]] at T2
      cases T2
  · obtain ⟨t1, T1, T2⟩ := stepsN_split
      (show stepsN (code (Node.PROG body)) (k + 1) ⟨0, [], gl⟩ = some s2
        from Hb)
    rw [Tr] at T1
    have ht1 : t1 = t := (Option.some.inj T1).symm
    subst ht1
    rw [show stepsN (code (Node.PROG body)) 1 t1 = none by
      simp [stepsN, Hstep]] at T2
    cases T2
  · exact (trace_conflict Tr Hstep T2 S2).elim

-- ------------------------------------------------------------------ --
-- The lexer produces only lowercase single-character identifiers     --
-- ------------------------------------------------------------------ --

/-- Every identifier token the lexer can produce carries a character in
`a`..`z` (the identifier branch is entered only on such a character). -/
theorem nextTok_ID : ∀ (l : List Char) {ch : Char} {l2 : List Char},
    nextTok l = .ok (.ID ch, l2) → ('a' ≤ ch ∧ ch ≤ 'z') := by
  intro l
  induction l with
  | nil => intro ch l2 h; simp [nextTok] at h
  | cons c0 rest ih =>
    intro ch l2 h
    simp only [nextTok] at h
    by_cases h1 : (c0 = ' ' ∨ c0 = '\n')
    · rw [if_pos h1] at h; exact ih h
    rw [if_neg h1] at h
    by_cases h2 : c0 = '{'
    · rw [if_pos h2] at h; simp at h
    rw [if_neg h2] at h
    by_cases h3 : c0 = '}'
    · rw [if_pos h3] at h; simp at h
    rw [if_neg h3] at h
    by_cases h4 : c0 = '('
    · rw [if_pos h4] at h; simp at h
    rw [if_neg h4] at h
    by_cases h5 : c0 = ')'
    · rw [if_pos h5] at h; simp at h
    rw [if_neg h5] at h
    by_cases h6 : c0 = '+'
    · rw [if_pos h6] at h; simp at h
    rw [if_neg h6] at h
    by_cases h7 : c0 = '-'
    · rw [if_pos h7] at h; simp at h
    rw [if_neg h7] at h
    by_cases h8 : c0 = '<'
    · rw [if_pos h8] at h; simp at h
    rw [if_neg h8] at h
    by_cases h9 : c0 = ';'
    · rw [if_pos h9] at h; simp at h
    rw [if_neg h9] at h
    by_cases h10 : c0 = '='
    · rw [if_pos h10] at h; simp at h
    rw [if_neg h10] at h
    by_cases h11 : isDigitCh c0 = true
    · rw [if_pos h11] at h; simp at h
    rw [if_neg h11] at h
    by_cases h12 : isLowerCh c0 = true
    · rw [if_pos h12] at h
      have hid : isIdCh c0 = true := by simp [isIdCh, h12]
      rw [List.takeWhile_cons_of_pos hid] at h
      cases htl : rest.takeWhile isIdCh with
      | nil =>
        rw [htl] at h
        simp at h
        rw [← h.1]
        simpa [isLowerCh] using h12
      | cons d tl =>
        rw [htl] at h
        by_cases hk1 : (c0 :: d :: tl) = ['d', 'o']
        · rw [if_pos hk1] at h; simp at h
        rw [if_neg hk1] at h
        by_cases hk2 : (c0 :: d :: tl) = ['e', 'l', 's', 'e']
        · rw [if_pos hk2] at h; simp at h
        rw [if_neg hk2] at h
        by_cases hk3 : (c0 :: d :: tl) = ['i', 'f']
        · rw [if_pos hk3] at h; simp at h
        rw [if_neg hk3] at h
        by_cases hk4 : (c0 :: d :: tl) = ['w', 'h', 'i', 'l', 'e']
        · rw [if_pos hk4] at h; simp at h
        rw [if_neg hk4] at h
        simp at h
    · rw [if_neg h12] at h
      simp at h

/-- The invariant carried by the parser's lookahead token. -/
def idOk (t : Tok) : Prop := ∀ ch, t = .ID ch → ('a' ≤ ch ∧ ch ≤ 'z')

theorem nextTok_idOk {l : List Char} {t : Tok} {l2 : List Char}
    (h : nextTok l = .ok (t, l2)) : idOk t := by
  intro ch he
  subst he
  exact nextTok_ID l h

theorem idOk_var_lt {ch : Char} (h1 : 'a' ≤ ch) (h2 : ch ≤ 'z') :
    ch.toNat - 97 < 26 := by
  simp [Char.le_def, UInt32.le_def, Char.toNat, BitVec.le_def,
    UInt32.toNat] at h1 h2
  simp [Char.toNat, UInt32.toNat]
  omega

-- ------------------------------------------------------------------ --
-- The parser produces only well-formed nodes                         --
-- ------------------------------------------------------------------ --

/-- Well-formedness of parser outputs, proved for all eight
(mutually recursive) parsing procedures at once by induction on the
fuel: every expression procedure returns an `isE` node, `statement`
returns an `isS` node, and the new lookahead token again satisfies
`idOk`. -/
theorem parserWf : ∀ (fuel : Nat),
    (∀ t l r, parenExprP fuel t l = .ok r → isE r.1 = true ∧ idOk r.2.1)
  ∧ (∀ t l r, idOk t → termP fuel t l = .ok r → isE r.1 = true ∧ idOk r.2.1)
  ∧ (∀ x t l r, isE x = true → idOk t → sumLoopP fuel x t l = .ok r →
      isE r.1 = true ∧ idOk r.2.1)
  ∧ (∀ t l r, idOk t → sumP fuel t l = .ok r → isE r.1 = true ∧ idOk r.2.1)
  ∧ (∀ t l r, idOk t → testP fuel t l = .ok r → isE r.1 = true ∧ idOk r.2.1)
  ∧ (∀ t l r, idOk t → exprP fuel t l = .ok r → isE r.1 = true ∧ idOk r.2.1)
  ∧ (∀ x t l r, isS x = true → idOk t → stmtListP fuel x t l = .ok r →
      isS r.1 = true ∧ idOk r.2.1)
  ∧ (∀ t l r, idOk t → statementP fuel t l = .ok r →
      isS r.1 = true ∧ idOk r.2.1) := by
  intro fuel
  induction fuel with
  | zero =>
    refine ⟨?_, ?_, ?_, ?_, ?_, ?_, ?_, ?_⟩
    · intro t l r h; simp [parenExprP] at h
    · intro t l r _ h; simp [termP] at h
    · intro x t l r _ _ h; simp [sumLoopP] at h
    · intro t l r _ h; simp [sumP] at h
    · intro t l r _ h; simp [testP] at h
    · intro t l r _ h; simp [exprP] at h
    · intro x t l r _ _ h; simp [stmtListP] at h
    · intro t l r _ h; simp [statementP] at h
  | succ n IH =>
    obtain ⟨ihPar, ihTerm, ihSumLoop, ihSum, ihTest, ihExpr, ihList, ihStmt⟩ :=
      IH
    refine ⟨?_, ?_, ?_, ?_, ?_, ?_, ?_, ?_⟩
    · -- parenExprP
      intro t l r h
      simp only [parenExprP] at h
      split at h
      · split at h
        · simp at h
        · rename_i t1 l1 heq1
          split at h
          · simp at h
          · rename_i x t2 l2 heq2
            split at h
            · split at h
              · simp at h
              · rename_i t3 l3 heq3
                obtain rfl : (x, t3, l3) = r := by simpa using h
                exact ⟨(ihExpr t1 l1 (x, t2, l2) (nextTok_idOk heq1)
                  heq2).1, nextTok_idOk heq3⟩
            · simp at h
      · simp at h
    · -- termP
      intro t l r hT h
      simp only [termP] at h
      split at h
      · rename_i ch
        split at h
        · simp at h
        · rename_i t1 l1 heq1
          obtain rfl : (Node.VAR (ch.toNat - 97), t1, l1) = r := by
            simpa using h
          refine ⟨?_, nextTok_idOk heq1⟩
          obtain ⟨hlo, hhi⟩ := hT ch rfl
          simp [isE]
          exact idOk_var_lt hlo hhi
      · rename_i v
        split at h
        · simp at h
        · rename_i t1 l1 heq1
          obtain rfl : (Node.CST v, t1, l1) = r := by simpa using h
          exact ⟨by simp [isE], nextTok_idOk heq1⟩
      all_goals exact ihPar _ l r h
    · -- sumLoopP
      intro x t l r hx hT h
      simp only [sumLoopP] at h
      split at h
      · split at h
        · simp at h
        · rename_i t1 l1 heq1
          split at h
          · simp at h
          · rename_i y t2 l2 heq2
            have hterm := ihTerm t1 l1 (y, t2, l2) (nextTok_idOk heq1) heq2
            refine ihSumLoop _ t2 l2 r ?_ hterm.2 h
            split <;> simp [isE, hx, hterm.1]
      · obtain rfl : (x, t, l) = r := by simpa using h
        exact ⟨hx, hT⟩
    · -- sumP
      intro t l r hT h
      simp only [sumP] at h
      split at h
      · simp at h
      · rename_i x t1 l1 heq1
        have h1 := ihTerm t l (x, t1, l1) hT heq1
        exact ihSumLoop x t1 l1 r h1.1 h1.2 h
    · -- testP
      intro t l r hT h
      simp only [testP] at h
      split at h
      · simp at h
      · rename_i x t1 l1 heq1
        have h1 := ihSum t l (x, t1, l1) hT heq1
        split at h
        · split at h
          · simp at h
          · rename_i t2 l2 heq2
            split at h
            · simp at h
            · rename_i y t3 l3 heq3
              have h2 := ihSum t2 l2 (y, t3, l3) (nextTok_idOk heq2) heq3
              obtain rfl : (Node.LT x y, t3, l3) = r := by simpa using h
              exact ⟨by simp [isE, h1.1, h2.1], h2.2⟩
        · obtain rfl : (x, t1, l1) = r := by simpa using h
          exact h1
    · -- exprP
      intro t l r hT h
      simp only [exprP] at h
      split at h
      · split at h
        · simp at h
        · rename_i x t1 l1 heq1
          have h1 := ihTest _ l (x, t1, l1) hT heq1
          split at h
          · rename_i i
            split at h
            · simp at h
            · rename_i t2 l2 heq2
              split at h
              · simp at h
              · rename_i y t3 l3 heq3
                have h2 := ihExpr t2 l2 (y, t3, l3) (nextTok_idOk heq2) heq3
                obtain rfl : (Node.SET i y, t3, l3) = r := by simpa using h
                refine ⟨?_, h2.2⟩
                have hi : isE (Node.VAR i) = true := h1.1
                simp [isE] at hi ⊢
                exact ⟨hi, h2.1⟩
          · obtain rfl : (x, t1, l1) = r := by simpa using h
            exact h1
      all_goals exact ihTest _ l r hT h
    · -- stmtListP
      intro x t l r hx hT h
      simp only [stmtListP] at h
      split at h
      · split at h
        · simp at h
        · rename_i t1 l1 heq1
          obtain rfl : (x, t1, l1) = r := by simpa using h
          exact ⟨hx, nextTok_idOk heq1⟩
      · split at h
        · simp at h
        · rename_i s t1 l1 heq1
          have h1 := ihStmt t l (s, t1, l1) hT heq1
          exact ihList (Node.SEQ x s) t1 l1 r (by simp [isS, hx, h1.1])
            h1.2 h
    · -- statementP
      intro t l r hT h
      simp only [statementP] at h
      split at h
      · -- if
        split at h
        · simp at h
        · rename_i t1 l1 heq1
          split at h
          · simp at h
          · rename_i cond t2 l2 heq2
            have hcond := ihPar t1 l1 (cond, t2, l2) heq2
            split at h
            · simp at h
            · rename_i thn t3 l3 heq3
              have hthn := ihStmt t2 l2 (thn, t3, l3) hcond.2 heq3
              split at h
              · split at h
                · simp at h
                · rename_i t4 l4 heq4
                  split at h
                  · simp at h
                  · rename_i els t5 l5 heq5
                    have hels := ihStmt t4 l4 (els, t5, l5)
                      (nextTok_idOk heq4) heq5
                    obtain rfl : (Node.IF2 cond thn els, t5, l5) = r := by
                      simpa using h
                    exact ⟨by simp [isS, hcond.1, hthn.1, hels.1], hels.2⟩
              · obtain rfl : (Node.IF1 cond thn, t3, l3) = r := by
                  simpa using h
                exact ⟨by simp [isS, hcond.1, hthn.1], hthn.2⟩
      · -- while
        split at h
        · simp at h
        · rename_i t1 l1 heq1
          split at h
          · simp at h
          · rename_i cond t2 l2 heq2
            have hcond := ihPar t1 l1 (cond, t2, l2) heq2
            split at h
            · simp at h
            · rename_i body t3 l3 heq3
              have hbody := ihStmt t2 l2 (body, t3, l3) hcond.2 heq3
              obtain rfl : (Node.WHILE cond body, t3, l3) = r := by
                simpa using h
              exact ⟨by simp [isS, hcond.1, hbody.1], hbody.2⟩
      · -- do
        split at h
        · simp at h
        · rename_i t1 l1 heq1
          split at h
          · simp at h
          · rename_i body t2 l2 heq2
            have hbody := ihStmt t1 l1 (body, t2, l2) (nextTok_idOk heq1)
              heq2
            split at h
            · split at h
              · simp at h
              · rename_i t3 l3 heq3
                split at h
                · simp at h
                · rename_i cond t4 l4 heq4
                  have hcond := ihPar t3 l3 (cond, t4, l4) heq4
                  split at h
                  · split at h
                    · simp at h
                    · rename_i t5 l5 heq5
                      obtain rfl : (Node.DO body cond, t5, l5) = r := by
                        simpa using h
                      exact ⟨by simp [isS, hbody.1, hcond.1],
                        nextTok_idOk heq5⟩
                  · simp at h
            · simp at h
      · -- semi
        split at h
        · simp at h
        · rename_i t1 l1 heq1
          obtain rfl : (Node.EMPTY, t1, l1) = r := by simpa using h
          exact ⟨by simp [isS], nextTok_idOk heq1⟩
      · -- block
        split at h
        · simp at h
        · rename_i t1 l1 heq1
          exact ihList Node.EMPTY t1 l1 r (by simp [isS])
            (nextTok_idOk heq1) h
      all_goals {
        split at h
        · simp at h
        · rename_i x t1 l1 heq1
          have hx := ihExpr _ l (x, t1, l1) hT heq1
          split at h
          · split at h
            · simp at h
            · rename_i t2 l2 heq2
              obtain rfl : (Node.EXPR x, t2, l2) = r := by simpa using h
              exact ⟨by simpa [isS] using hx.1, nextTok_idOk heq2⟩
          · simp at h }

/-- The parser's entry point returns only well-formed programs. -/
theorem parseProgram_wf {fuel : Nat} {input : List Char} {x : Node}
    (h : parseProgram fuel input = .ok x) : isP x = true := by
  simp only [parseProgram] at h
  split at h
  · simp at h
  · rename_i t l heq1
    split at h
    · simp at h
    · rename_i s t1 l1 heq2
      split at h
      · obtain rfl : Node.PROG s = x := by simpa using h
        simpa [isP] using ((parserWf fuel).2.2.2.2.2.2.2 t l (s, t1, l1)
          (nextTok_idOk heq1) heq2).1
      · simp at h

-- ------------------------------------------------------------------ --
-- Determinism of execution                                           --
-- ------------------------------------------------------------------ --

theorem halt_no_continue {cs : List Int} {t sf : VMSt}
    (H : step cs t = .halted sf) :
    ∀ j, 1 ≤ j → stepsN cs j t = none := by
  intro j hj
  obtain ⟨j', rfl⟩ : ∃ j', j = j' + 1 := ⟨j - 1, by omega⟩
  rw [show j' + 1 = 1 + j' by omega]
  cases hx : stepsN cs (1 + j') t with
  | none => rfl
  | some u =>
    obtain ⟨w, W1, _⟩ := stepsN_split hx
    rw [show stepsN cs 1 t = none by simp [stepsN, H]] at W1
    cases W1

theorem halted_unique {cs : List Int} {s0 t u sf sf2 : VMSt} {k m : Nat}
    (T1 : stepsN cs k s0 = some t) (H1 : step cs t = .halted sf)
    (T2 : stepsN cs m s0 = some u) (H2 : step cs u = .halted sf2) :
    sf = sf2 := by
  rcases Nat.lt_trichotomy k m with hlt | heq | hgt
  · exfalso
    obtain ⟨t', T1', T2'⟩ := stepsN_split
      (show stepsN cs (k + (m - k)) s0 = some u by
        rwa [show k + (m - k) = m by omega])
    rw [T1] at T1'
    rw [← Option.some.inj T1'] at T2'
    rw [halt_no_continue H1 (m - k) (by omega)] at T2'
    cases T2'
  · subst heq
    rw [T1] at T2
    rw [← Option.some.inj T2] at H2
    rw [H1] at H2
    exact StepRes.halted.inj H2
  · exfalso
    obtain ⟨t', T1', T2'⟩ := stepsN_split
      (show stepsN cs (m + (k - m)) s0 = some t by
        rwa [show m + (k - m) = k by omega])
    rw [T2] at T1'
    rw [← Option.some.inj T1'] at T2'
    rw [halt_no_continue H2 (k - m) (by omega)] at T2'
    cases T2'

/-- The unique halting state of an expression-statement program: the
program evaluates its expression (performing the embedded assignments),
pops it, and halts with an empty stack and the updated globals. -/
theorem prog_expr_run {e : Node} (he : isE e = true) {gl : List Int}
    (hgl : gl.length = 26) {fuel : Nat} {sf : VMSt}
    (h : run (compileProg (Node.PROG (Node.EXPR e))) fuel ⟨0, [], gl⟩
      = .halted sf) :
    sf = ⟨(code e).length + 2, [], (evalE e gl).2⟩ := by
  rw [compileProg_eq] at h
  obtain ⟨k, t, hk, Tr, Hstep⟩ := run_halted h
  have hall := segAt_refl (code (Node.PROG (Node.EXPR e)))
  rw [show code (Node.PROG (Node.EXPR e)) = (code e ++ [IPOP]) ++ [HALT]
    from rfl] at hall
  have hseg : SegAt (code (Node.PROG (Node.EXPR e))) 0 (code e) :=
    segAt_left (segAt_left hall)
  have hpop : (code (Node.PROG (Node.EXPR e)))[(code e).length]?
      = some IPOP :=
    segAt_head (segAt_pos (segAt_right (segAt_left hall)) (by omega))
  have hhalt : (code (Node.PROG (Node.EXPR e)))[(code e).length + 1]?
      = some HALT :=
    segAt_head (segAt_pos (segAt_right hall) (by simp))
  rcases exprSteps e he (code (Node.PROG (Node.EXPR e))) 0 [] gl hseg hgl
    with ⟨k1, H1⟩ | ⟨kf, uf, Tf, Sf⟩
  rotate_left
  · exact (trace_conflict Tr Hstep Tf Sf).elim
  have H1' : stepsN (code (Node.PROG (Node.EXPR e))) k1 ⟨0, [], gl⟩
      = some ⟨(code e).length, [(evalE e gl).1], (evalE e gl).2⟩ := by
    simpa using H1
  have H2 : stepsN (code (Node.PROG (Node.EXPR e))) 1
      ⟨(code e).length, [(evalE e gl).1], (evalE e gl).2⟩
      = some ⟨(code e).length + 1, [], (evalE e gl).2⟩ :=
    stepsN_one (step_ipop hpop)
  have H3 : step (code (Node.PROG (Node.EXPR e)))
      ⟨(code e).length + 1, [], (evalE e gl).2⟩
      = .halted ⟨(code e).length + 2, [], (evalE e gl).2⟩ :=
    step_halt hhalt
  exact halted_unique Tr Hstep (stepsN_trans H1' H2) H3

-- ------------------------------------------------------------------ --
-- Chained assignments                                                --
-- ------------------------------------------------------------------ --

theorem chain_isE {vs : List Nat} {K : Node} (hvs : ∀ v ∈ vs, v < 26)
    (hK : isE K = true) : isE (chain vs K) = true := by
  induction vs with
  | nil => exact hK
  | cons v vs ih =>
    simp only [chain, isE, Bool.and_eq_true, decide_eq_true_eq]
    exact ⟨hvs v (by simp), ih (fun w hw => hvs w (by simp [hw]))⟩

theorem evalE_chain_val : ∀ (vs : List Nat) (K : Node) (gl : List Int),
    (evalE (chain vs K) gl).1 = (evalE K gl).1 := by
  intro vs
  induction vs with
  | nil => intro K gl; rfl
  | cons v vs ih => intro K gl; simp [chain, evalE, ih]

theorem getD_set_self {l : List Int} {i : Nat} {v : Int} (h : i < l.length) :
    (l.set i v).getD i 0 = v := by
  rw [List.getD_eq_getElem?_getD, List.getElem?_set_eq_of_lt v h]
  rfl

theorem getD_set_other {l : List Int} {i j : Nat} {v : Int} (h : i ≠ j) :
    (l.set i v).getD j 0 = l.getD j 0 := by
  rw [List.getD_eq_getElem?_getD, List.getElem?_set_ne h,
    ← List.getD_eq_getElem?_getD]

/-- After evaluating `v1 = v2 = ... = vn = K`, every `vi` holds the
value of `K` (each store writes the value that stays on the stack). -/
theorem evalE_chain_mem : ∀ (vs : List Nat) (K : Node) (gl : List Int),
    (∀ v ∈ vs, v < 26) → gl.length = 26 →
    ∀ v ∈ vs, ((evalE (chain vs K) gl).2).getD v 0 = (evalE K gl).1 := by
  intro vs
  induction vs with
  | nil => intro K gl _ _ v hv; cases hv
  | cons v0 vs ih =>
    intro K gl hvs hgl v hv
    simp only [chain, evalE]
    rcases List.mem_cons.mp hv with rfl | hmem
    · rw [evalE_chain_val, getD_set_self]
      rw [evalE_len, hgl]
      exact hvs v (by simp)
    · by_cases hvv : v0 = v
      · subst hvv
        rw [evalE_chain_val, getD_set_self]
        rw [evalE_len, hgl]
        exact hvs v0 (by simp)
      · rw [getD_set_other hvv]
        exact ih K gl (fun w hw => hvs w (by simp [hw])) hgl v hmem

-- ------------------------------------------------------------------ --
-- All-whitespace input                                                --
-- ------------------------------------------------------------------ --

theorem nextTok_ws : ∀ (l : List Char),
    (∀ ch ∈ l, ch = ' ' ∨ ch = '\n') → nextTok l = .ok (.EOI, []) := by
  intro l
  induction l with
  | nil => intro _; rfl
  | cons ch rest ih =>
    intro h
    simp only [nextTok]
    rw [if_pos (h ch (by simp))]
    exact ih (fun c hc => h c (by simp [hc]))

theorem statementP_EOI : ∀ (fuel : Nat), ∃ e,
    statementP fuel .EOI [] = .error e := by
  intro fuel
  rcases fuel with _|_|_|_|_|_|n
  all_goals exact ⟨_, rfl⟩

-- ------------------------------------------------------------------ --
-- Maximal-run lemmas for the lexer                                   --
-- ------------------------------------------------------------------ --

theorem lower_not_digit {c : Char} (h : isLowerCh c = true) :
    isDigitCh c = false := by
  simp [isLowerCh, Char.le_def, UInt32.le_def, BitVec.le_def] at h
  simp [isDigitCh, Char.le_def, UInt32.le_def, BitVec.le_def]
  omega

theorem takeWhile_span {p : Char → Bool} : ∀ (l rest : List Char),
    (∀ ch ∈ l, p ch = true) → (∀ ch, rest.head? = some ch → p ch = false) →
    (l ++ rest).takeWhile p = l ∧ (l ++ rest).dropWhile p = rest := by
  intro l
  induction l with
  | nil =>
    intro rest _ hr
    cases rest with
    | nil => simp
    | cons r rs =>
      have hpr : ¬ p r = true := by simp [hr r rfl]
      exact ⟨by simp [List.takeWhile_cons_of_neg hpr],
        by simp [List.dropWhile_cons_of_neg hpr]⟩
  | cons a l ih =>
    intro rest hall hr
    have ha := hall a (by simp)
    obtain ⟨h1, h2⟩ := ih rest (fun ch hch => hall ch (by simp [hch])) hr
    exact ⟨by simp [List.takeWhile_cons_of_pos ha, h1],
      by simp [List.dropWhile_cons_of_pos ha, h2]⟩

-- ================================================================== --
-- Claim theorems                                                     --
-- ================================================================== --

/-- C1 (code bug): after the program `a=1;` runs successfully, the main
program prints the line `97 = 1` — the f-string interpolates the integer
`ord('a') + i` itself instead of the letter — whereas the claimed (and
docstring-documented) output line is `a = 1`. -/
theorem C1_report_prints_codepoint :
    mainTiny ("a=1;".toList) 30 30 = .out ["97 = 1"]
  ∧ report ((List.replicate 26 0).set 0 1) = ["97 = 1"]
  ∧ "97 = 1" ≠ "a = 1" :=
  ⟨by decide, by decide, by decide⟩

/-- C2: well-formedness and the stack-balance invariant.  First, every
program the parser accepts is well formed (`isP`).  Second, for every
well-formed program whose compiled bytecode the VM runs to completion,
the operand stack is empty at the moment the halt instruction is
decoded (the halt step leaves the stack untouched, so the final state's
stack is exactly the stack at decode time). -/
theorem C2_stack_balance :
    (∀ (fuel : Nat) (input : List Char) (x : Node),
        parseProgram fuel input = .ok x → isP x = true)
  ∧ (∀ (body : Node) (gl : List Int) (fuel : Nat) (sf : VMSt),
      isS body = true → gl.length = 26 →
      run (compileProg (Node.PROG body)) fuel ⟨0, [], gl⟩ = .halted sf →
      sf.stack = []) :=
  ⟨fun _ _ _ h => parseProgram_wf h,
   fun _ _ _ _ hb hgl h => prog_balanced hb hgl h⟩

/-- Witness for C2 at a concrete program (`a=5;` as an AST). -/
theorem C2_stack_balance_witness :
    isS (Node.EXPR (Node.SET 0 (Node.CST 5))) = true
  ∧ run (compileProg (Node.PROG (Node.EXPR (Node.SET 0 (Node.CST 5))))) 10
      ⟨0, [], List.replicate 26 0⟩
      = .halted ⟨6, [], (List.replicate 26 0).set 0 5⟩
  ∧ (⟨6, [], (List.replicate 26 0).set 0 5⟩ : VMSt).stack = [] :=
  ⟨by decide, by decide,
   C2_stack_balance.2 (Node.EXPR (Node.SET 0 (Node.CST 5)))
     (List.replicate 26 0) 10 ⟨6, [], (List.replicate 26 0).set 0 5⟩
     (by decide) (by decide) (by decide)⟩

/-- C3: backpatching and jump arithmetic.  `fix` writes exactly
`target - displacement_byte_address` into the displacement byte (and
changes nothing else); the VM adds the displacement while `pc` points at
the displacement byte, so a taken `JZ`/`JNZ`/`JMP` lands exactly on the
patched target, and a not-taken conditional continues at the byte right
after the displacement byte. -/
theorem C3_displacement_semantics :
    (∀ (src dst : Nat) (s : CSt), src < s.obj.length →
        (fix src dst s).obj[src]? = some ((dst : Int) - (src : Int))
      ∧ (fix src dst s).obj.length = s.obj.length
      ∧ ∀ j, j ≠ src → (fix src dst s).obj[j]? = s.obj[j]?)
  ∧ (∀ (cs : List Int) (pc : Nat) (d : Int) (st gl : List Int)
        (target : Nat), cs[pc]? = some JZ → cs[pc + 1]? = some d →
        (pc : Int) + 1 + d = (target : Nat) →
        step cs ⟨pc, 0 :: st, gl⟩ = .next ⟨target, st, gl⟩)
  ∧ (∀ (cs : List Int) (pc : Nat) (d v : Int) (st gl : List Int),
        cs[pc]? = some JZ → cs[pc + 1]? = some d → v ≠ 0 →
        step cs ⟨pc, v :: st, gl⟩ = .next ⟨pc + 2, st, gl⟩)
  ∧ (∀ (cs : List Int) (pc : Nat) (d v : Int) (st gl : List Int)
        (target : Nat), cs[pc]? = some JNZ → cs[pc + 1]? = some d →
        v ≠ 0 → (pc : Int) + 1 + d = (target : Nat) →
        step cs ⟨pc, v :: st, gl⟩ = .next ⟨target, st, gl⟩)
  ∧ (∀ (cs : List Int) (pc : Nat) (d : Int) (st gl : List Int),
        cs[pc]? = some JNZ → cs[pc + 1]? = some d →
        step cs ⟨pc, 0 :: st, gl⟩ = .next ⟨pc + 2, st, gl⟩)
  ∧ (∀ (cs : List Int) (pc : Nat) (d : Int) (stack gl : List Int)
        (target : Nat), cs[pc]? = some JMP → cs[pc + 1]? = some d →
        (pc : Int) + 1 + d = (target : Nat) →
        step cs ⟨pc, stack, gl⟩ = .next ⟨target, stack, gl⟩) := by
  refine ⟨?_, ?_, ?_, ?_, ?_, ?_⟩
  · intro src dst s hlt
    refine ⟨?_, by simp [fix], ?_⟩
    · simp only [fix]
      exact List.getElem?_set_eq_of_lt _ hlt
    · intro j hj
      simp only [fix]
      exact List.getElem?_set_ne (fun hh => hj hh.symm)
  · intro cs pc d st gl target h0 h1 ht
    exact step_jz_taken h0 h1 ht
  · intro cs pc d v st gl h0 h1 hv
    exact step_jz_nottaken h0 h1 hv
  · intro cs pc d v st gl target h0 h1 hv ht
    exact step_jnz_taken h0 h1 hv ht
  · intro cs pc d st gl h0 h1
    exact step_jnz_nottaken h0 h1
  · intro cs pc d stack gl target h0 h1 ht
    exact step_jmp h0 h1 ht

/-- Witness for C3: a patched backward jump and a not-taken `JZ` on a
concrete two-instruction code array. -/
theorem C3_displacement_semantics_witness :
    ((fix 1 0 ⟨[JZ, 0]⟩).obj[1]? = some ((0 : Int) - (1 : Int))
      ∧ (fix 1 0 ⟨[JZ, 0]⟩).obj.length = 2
      ∧ ∀ j, j ≠ 1 → (fix 1 0 ⟨[JZ, 0]⟩).obj[j]? = ([JZ, 0] : List Int)[j]?)
  ∧ step [JZ, 3] ⟨0, [0], []⟩ = .next ⟨4, [], []⟩
  ∧ step [JZ, 3] ⟨0, [7], []⟩ = .next ⟨2, [], []⟩
  ∧ step [JMP, -1] ⟨0, [], []⟩ = .next ⟨0, [], []⟩ := by
  refine ⟨?_, ?_, ?_, ?_⟩
  · have h := C3_displacement_semantics.1 1 0 ⟨[JZ, 0]⟩ (by decide)
    exact ⟨h.1, h.2.1, h.2.2⟩
  · exact C3_displacement_semantics.2.1 [JZ, 3] 0 3 [] [] 4 (by decide)
      (by decide) (by decide)
  · exact C3_displacement_semantics.2.2.1 [JZ, 3] 0 3 7 [] [] (by decide)
      (by decide) (by decide)
  · exact C3_displacement_semantics.2.2.2.2.2 [JMP, -1] 0 (-1) [] [] 0
      (by decide) (by decide) (by decide)

/-- C4: chained assignment.  Generally, running the compiled program
`v1=v2=...=vn=K;` to completion leaves every `vi` holding the value of
`K`; concretely, `a=b=c=2<3;` parses right-associatively to
`SET a (SET b (SET c (2<3)))` and execution leaves `a`, `b`, `c` all
equal to 1. -/
theorem C4_chain_assignment :
    (∀ (vs : List Nat) (K : Node) (gl : List Int) (fuel : Nat) (sf : VMSt),
        isE K = true → (∀ v ∈ vs, v < 26) → gl.length = 26 →
        run (compileProg (Node.PROG (Node.EXPR (chain vs K)))) fuel
            ⟨0, [], gl⟩ = .halted sf →
        ∀ v ∈ vs, sf.gl.getD v 0 = (evalE K gl).1)
  ∧ parseProgram 30 ("a=b=c=2<3;".toList)
      = .ok (Node.PROG (Node.EXPR (chain [0, 1, 2]
          (Node.LT (Node.CST 2) (Node.CST 3)))))
  ∧ run (compileProg (Node.PROG (Node.EXPR (chain [0, 1, 2]
        (Node.LT (Node.CST 2) (Node.CST 3)))))) 30
        ⟨0, [], List.replicate 26 0⟩
      = .halted ⟨13, [], (((List.replicate 26 0).set 2 1).set 1 1).set 0 1⟩
  ∧ ((((List.replicate 26 0).set 2 1).set 1 1).set 0 1).getD 0 0 = 1
  ∧ ((((List.replicate 26 0).set 2 1).set 1 1).set 0 1).getD 1 0 = 1
  ∧ ((((List.replicate 26 0).set 2 1).set 1 1).set 0 1).getD 2 0 = 1 := by
  refine ⟨?_, by decide, by decide, by decide, by decide, by decide⟩
  intro vs K gl fuel sf hK hvs hgl h v hv
  rw [prog_expr_run (chain_isE hvs hK) hgl h]
  exact evalE_chain_mem vs K gl hvs hgl v hv

/-- Witness for C4 at the concrete chain `a=b=c=2<3;`. -/
theorem C4_chain_assignment_witness :
    (⟨13, [], (((List.replicate 26 0).set 2 1).set 1 1).set 0 1⟩
        : VMSt).gl.getD 0 0
      = (evalE (Node.LT (Node.CST 2) (Node.CST 3))
          (List.replicate 26 0)).1 :=
  C4_chain_assignment.1 [0, 1, 2] (Node.LT (Node.CST 2) (Node.CST 3))
    (List.replicate 26 0) 30
    ⟨13, [], (((List.replicate 26 0).set 2 1).set 1 1).set 0 1⟩
    (by decide) (by decide) (by decide) (by decide) 0 (by decide)

/-- C5: the store-global instruction writes the top of stack into
`globals[i]` and changes nothing else — the operand stack (same height,
same elements) and every other global are untouched, and `pc` advances
past the operand byte. -/
theorem C5_store_global_frame :
    ∀ (cs : List Int) (pc : Nat) (i : Nat) (v : Int) (st gl : List Int),
      cs[pc]? = some ISTORE → cs[pc + 1]? = some ((i : Nat) : Int) →
      i < gl.length →
      step cs ⟨pc, v :: st, gl⟩ = .next ⟨pc + 2, v :: st, gl.set i v⟩
      ∧ (gl.set i v).length = gl.length
      ∧ (gl.set i v)[i]? = some v
      ∧ ∀ j, j ≠ i → (gl.set i v)[j]? = gl[j]? := by
  intro cs pc i v st gl h0 h1 hi
  refine ⟨step_istore h0 h1 hi, by simp, ?_, ?_⟩
  · exact List.getElem?_set_eq_of_lt v hi
  · intro j hj
    exact List.getElem?_set_ne (fun hh => hj hh.symm)

/-- Witness for C5 on a concrete one-instruction program. -/
theorem C5_store_global_frame_witness :
    step [ISTORE, 3] ⟨0, [7], List.replicate 26 0⟩
      = .next ⟨2, [7], (List.replicate 26 0).set 3 7⟩
  ∧ ((List.replicate 26 (0 : Int)).set 3 7).length = 26
  ∧ ((List.replicate 26 (0 : Int)).set 3 7)[3]? = some 7
  ∧ ((List.replicate 26 (0 : Int)).set 3 7)[5]?
      = (List.replicate 26 (0 : Int))[5]? := by
  have h := C5_store_global_frame [ISTORE, 3] 0 3 7 [] (List.replicate 26 0)
    (by decide) (by decide) (by decide)
  exact ⟨h.1, by simp, h.2.2.1, h.2.2.2 5 (by decide)⟩

/-- C6 (counterexample): the syntactically valid program `a=200;` is
accepted by the parser, but its compilation writes the byte 200 into the
`array("b")` code buffer, which is outside the representable range
-128..127 — the Python process aborts with an uncaught `OverflowError`
(a failure mode that is neither the `syntax error` diagnostic nor a
successful run). -/
theorem C6_other_failure_mode :
    parseProgram 30 ("a=200;".toList)
      = .ok (Node.PROG (Node.EXPR (Node.SET 0 (Node.CST 200))))
  ∧ byteOk (compileProg (Node.PROG (Node.EXPR (Node.SET 0 (Node.CST 200)))))
      = false
  ∧ mainTiny ("a=200;".toList) 30 30 = .byteOverflowAbort
  ∧ mainTiny ("a=200;".toList) 30 30 ≠ .synErrExit :=
  ⟨by decide, by decide, by decide, by decide⟩

/-- C6 (amended): a syntax error prints `syntax error` and exits
non-zero with no result output, and an accepted program whose emitted
bytes fit the signed-byte buffer and whose execution runs to completion
prints the report and exits 0; but these are not the only externally
exposed behaviours — there is an accepted program whose compilation
aborts with an uncaught `OverflowError` because an emitted byte is out
of range, and an accepted, in-range program whose execution aborts with
an uncaught `OverflowError` when a 32-bit addition overflows at
run time. -/
theorem C6_failure_modes_amended :
    (∀ (input : List Char) (pf vf : Nat),
        parseProgram pf input = .error .synErr →
        mainTiny input pf vf = .synErrExit)
  ∧ (∀ (input : List Char) (pf vf : Nat) (x : Node) (sf : VMSt),
        parseProgram pf input = .ok x →
        byteOk (compileProg x) = true → (compileProg x).length ≤ 1000 →
        run (compileProg x) vf ⟨0, [], List.replicate 26 0⟩ = .halted sf →
        mainTiny input pf vf = .out (report sf.gl))
  ∧ (∃ input : List Char, (∃ x, parseProgram 30 input = .ok x)
      ∧ mainTiny input 30 30 = .byteOverflowAbort)
  ∧ (∃ input : List Char, (∃ x, parseProgram 40 input = .ok x
        ∧ byteOk (compileProg x) = true ∧ (compileProg x).length ≤ 1000)
      ∧ mainTiny input 40 400 = .runtimeAbort) := by
  refine ⟨?_, ?_, ?_, ?_⟩
  · intro input pf vf h
    simp [mainTiny, h]
  · intro input pf vf x sf h1 h2 h3 h4
    simp [mainTiny, h1, h2, h3]
    simp [List.replicate] at h4
    rw [h4]
  · exact ⟨"a=200;".toList,
      ⟨Node.PROG (Node.EXPR (Node.SET 0 (Node.CST 200))), by decide⟩,
      by decide⟩
  · exact ⟨"while ((a=a+100)<101) while (0<a) a=a+a;".toList,
      ⟨Node.PROG (Node.WHILE
          (Node.LT (Node.SET 0 (Node.ADD (Node.VAR 0) (Node.CST 100)))
            (Node.CST 101))
          (Node.WHILE (Node.LT (Node.CST 0) (Node.VAR 0))
            (Node.EXPR (Node.SET 0 (Node.ADD (Node.VAR 0) (Node.VAR 0)))))),
        by decide, by decide, by decide⟩,
      by decide⟩

/-- Witness for C6 on a concrete rejected input and a concrete
successful run. -/
theorem C6_failure_modes_amended_witness :
    mainTiny ['@'] 5 5 = .synErrExit
  ∧ mainTiny ("a=1;".toList) 30 30
      = .out (report ((List.replicate 26 0).set 0 1)) := by
  constructor
  · exact C6_failure_modes_amended.1 ['@'] 5 5 (by decide)
  · exact C6_failure_modes_amended.2.1 ("a=1;".toList) 30 30
      (Node.PROG (Node.EXPR (Node.SET 0 (Node.CST 1))))
      ⟨6, [], (List.replicate 26 0).set 0 1⟩ (by decide) (by decide)
      (by decide) (by decide)

/-- C7: classification of a maximal identifier run.  When the lexer
reads a maximal run of lowercase letters and underscores (entered on a
lowercase letter), it emits the keyword token if the run is exactly
`do`, `else`, `if` or `while`; otherwise it emits an identifier token
iff the run is exactly one character; any longer non-keyword run is a
syntax error. -/
theorem C7_lexer_ident_rules :
    ∀ (c0 : Char) (w rest : List Char),
      isLowerCh c0 = true →
      (∀ ch ∈ c0 :: w, isIdCh ch = true) →
      (∀ ch, rest.head? = some ch → isIdCh ch = false) →
      ((c0 :: w = ['d', 'o'] →
          nextTok ((c0 :: w) ++ rest) = .ok (.DO_SYM, rest))
      ∧ (c0 :: w = ['e', 'l', 's', 'e'] →
          nextTok ((c0 :: w) ++ rest) = .ok (.ELSE_SYM, rest))
      ∧ (c0 :: w = ['i', 'f'] →
          nextTok ((c0 :: w) ++ rest) = .ok (.IF_SYM, rest))
      ∧ (c0 :: w = ['w', 'h', 'i', 'l', 'e'] →
          nextTok ((c0 :: w) ++ rest) = .ok (.WHILE_SYM, rest))
      ∧ (c0 :: w ∉ ([['d', 'o'], ['e', 'l', 's', 'e'], ['i', 'f'],
            ['w', 'h', 'i', 'l', 'e']] : List (List Char)) →
          (w = [] → nextTok ((c0 :: w) ++ rest) = .ok (.ID c0, rest))
        ∧ (w ≠ [] → nextTok ((c0 :: w) ++ rest) = .error .synErr))) := by
  intro c0 w rest hlow hall hmax
  have hspan := takeWhile_span (c0 :: w) rest hall hmax
  have hkey : nextTok ((c0 :: w) ++ rest)
      = (if c0 :: w = ['d', 'o'] then .ok (.DO_SYM, rest)
         else if c0 :: w = ['e', 'l', 's', 'e'] then .ok (.ELSE_SYM, rest)
         else if c0 :: w = ['i', 'f'] then .ok (.IF_SYM, rest)
         else if c0 :: w = ['w', 'h', 'i', 'l', 'e'] then
           .ok (.WHILE_SYM, rest)
         else
           match c0 :: w with
           | [ch] => .ok (.ID ch, rest)
           | _ => .error .synErr) := by
    show nextTok (c0 :: (w ++ rest)) = _
    simp only [nextTok]
    rw [if_neg (fun hh : c0 = ' ' ∨ c0 = '\n' =>
      hh.elim (fun hh => absurd (hh ▸ hlow) (by decide))
        (fun hh => absurd (hh ▸ hlow) (by decide)))]
    rw [if_neg (fun hh : c0 = '{' => absurd (hh ▸ hlow) (by decide))]
    rw [if_neg (fun hh : c0 = '}' => absurd (hh ▸ hlow) (by decide))]
    rw [if_neg (fun hh : c0 = '(' => absurd (hh ▸ hlow) (by decide))]
    rw [if_neg (fun hh : c0 = ')' => absurd (hh ▸ hlow) (by decide))]
    rw [if_neg (fun hh : c0 = '+' => absurd (hh ▸ hlow) (by decide))]
    rw [if_neg (fun hh : c0 = '-' => absurd (hh ▸ hlow) (by decide))]
    rw [if_neg (fun hh : c0 = '<' => absurd (hh ▸ hlow) (by decide))]
    rw [if_neg (fun hh : c0 = ';' => absurd (hh ▸ hlow) (by decide))]
    rw [if_neg (fun hh : c0 = '=' => absurd (hh ▸ hlow) (by decide))]
    rw [if_neg (show ¬ isDigitCh c0 = true by
      simp [lower_not_digit hlow])]
    rw [if_pos hlow]
    rw [← List.cons_append, hspan.1, hspan.2]
  refine ⟨?_, ?_, ?_, ?_, ?_⟩
  · intro heq; rw [hkey]; simp [heq]
  · intro heq; rw [hkey]; simp [heq]
  · intro heq; rw [hkey]; simp [heq]
  · intro heq; rw [hkey]; simp [heq]
  · intro hnot
    have h1 : ¬(c0 :: w = ['d', 'o']) := fun hh => hnot (by simp [hh])
    have h2 : ¬(c0 :: w = ['e', 'l', 's', 'e']) := fun hh =>
      hnot (by simp [hh])
    have h3 : ¬(c0 :: w = ['i', 'f']) := fun hh => hnot (by simp [hh])
    have h4 : ¬(c0 :: w = ['w', 'h', 'i', 'l', 'e']) := fun hh =>
      hnot (by simp [hh])
    constructor
    · intro hw
      subst hw
      rw [hkey, if_neg h1, if_neg h2, if_neg h3, if_neg h4]
    · intro hw
      obtain ⟨a, w2, rfl⟩ := List.exists_cons_of_ne_nil hw
      rw [hkey, if_neg h1, if_neg h2, if_neg h3, if_neg h4]

/-- Witness for C7: a keyword, a single-letter identifier, and a
rejected two-letter run. -/
theorem C7_lexer_ident_rules_witness :
    nextTok (['w', 'h', 'i', 'l', 'e'] ++ [' ']) = .ok (.WHILE_SYM, [' '])
  ∧ nextTok (['x'] ++ [';']) = .ok (.ID 'x', [';'])
  ∧ nextTok (['a', 'b'] ++ [';']) = .error .synErr := by
  refine ⟨?_, ?_, ?_⟩
  · exact (C7_lexer_ident_rules 'w' ['h', 'i', 'l', 'e'] [' '] (by decide)
      (by decide) (by intro ch hch; simp at hch; subst hch; decide)).2.2.2.1
      rfl
  · exact ((C7_lexer_ident_rules 'x' [] [';'] (by decide) (by decide)
      (by intro ch hch; simp at hch; subst hch; decide)).2.2.2.2
      (by decide)).1 rfl
  · exact ((C7_lexer_ident_rules 'a' ['b'] [';'] (by decide) (by decide)
      (by intro ch hch; simp at hch; subst hch; decide)).2.2.2.2
      (by decide)).2 (by decide)

/-- C8: a parenthesized variable is not an assignable target.  Any
statement that begins `( a ) = ...` is rejected whatever follows and
whatever fuel remains (the parser reaches the `=` with the bare `VAR`
already reduced and demands `;`), and the concrete program `(a)=1;` is
a syntax error. -/
theorem C8_paren_not_assignable :
    (∀ (fuel : Nat) (rest : List Char), ∃ e,
        statementP fuel .LPAR ('a' :: ')' :: '=' :: rest) = .error e)
  ∧ parseProgram 30 ("(a)=1;".toList) = .error .synErr := by
  refine ⟨?_, by decide⟩
  intro fuel rest
  rcases fuel with _|_|_|_|_|_|_|_|_|_|n
  all_goals exact ⟨_, rfl⟩

/-- C9: compilation is deterministic.  The bytes the code generator
appends for an AST — every patched displacement byte included — do not
depend on the state of the output buffer, so compiling the same AST
twice emits byte-identical code. -/
theorem C9_compile_deterministic :
    ∀ (x : Node) (s1 s2 : CSt), ∃ emitted : List Int,
      (c x s1).obj = s1.obj ++ emitted ∧ (c x s2).obj = s2.obj ++ emitted :=
  fun x s1 s2 => ⟨code x, c_obj x s1, c_obj x s2⟩

/-- C10: empty input, or input consisting only of spaces and newlines,
is rejected: the lexer reaches end-of-input, and the statement parser
falls through to the expression path which fails on the missing `(`. -/
theorem C10_blank_input_rejected :
    (∀ (input : List Char) (fuel : Nat) (x : Node),
        (∀ ch ∈ input, ch = ' ' ∨ ch = '\n') →
        parseProgram fuel input ≠ .ok x)
  ∧ parseProgram 20 [] = .error .synErr
  ∧ parseProgram 20 [' ', '\n', ' '] = .error .synErr := by
  refine ⟨?_, by decide, by decide⟩
  intro input fuel x hws h
  have hnt : nextTok (' ' :: input) = .ok (.EOI, []) :=
    nextTok_ws _ (by
      intro ch hch
      rcases List.mem_cons.mp hch with rfl | hm
      · exact Or.inl rfl
      · exact hws ch hm)
  obtain ⟨e, he⟩ := statementP_EOI fuel
  simp only [parseProgram, hnt, he] at h
  exact Except.noConfusion h

/-- Witness for C10 on a concrete whitespace input. -/
theorem C10_blank_input_rejected_witness :
    parseProgram 20 [' '] ≠ .ok Node.EMPTY :=
  C10_blank_input_rejected.1 [' '] 20 Node.EMPTY
    (by intro ch hch; simp at hch; subst hch; exact Or.inl rfl)

end TinyC
